import Mathlib

/-!
Verification of the generic queue primitives of the go-generic-tools
repository: the binary-heap priority queue, the slice shrink helper,
the delay queue with its broadcast condition, and the lock-free
linked queue.  Go slices are embedded as Lean lists (with an explicit
backing-capacity field where capacity matters), Go `int` division and
comparison as `Nat`/`Int` operations, and a run-time panic (division
by zero, nil dereference) as `Option.none`.
-/

set_option autoImplicit false

namespace GoQueue

/-! ### Go slice indexing helpers

Go's `data[i]` on a slice is embedded as `get1 data i`, total via the
`Inhabited` default (all source accesses are in bounds, which the proofs
track).  The parallel assignment `data[i], data[j] = data[j], data[i]`
is embedded as `setSwap data i j`. -/

def get1 {T : Type} [Inhabited T] (l : List T) (i : Nat) : T :=
  l.getD i default

def setSwap {T : Type} [Inhabited T] (l : List T) (i j : Nat) : List T :=
  (l.set i (get1 l j)).set j (get1 l i)

/-! ### Comparators

The repository's comparator type (generic.Comparator in the external
module) is a three-way compare: negative means the first argument
precedes the second.  `TotalCmp` captures the total-order contract the
spec demands of every comparator handed to the priority queue. -/

def Comparator (T : Type) : Type := T → T → Int

/-- A comparator is a total order when it is antisymmetric in sign and
its induced weak order is transitive. -/
structure TotalCmp {T : Type} (cmp : T → T → Int) : Prop where
  antisym : ∀ a b, cmp a b = - cmp b a
  le_trans : ∀ a b c, cmp a b ≤ 0 → cmp b c ≤ 0 → cmp a c ≤ 0

/-- The ascending comparator on integers used by the spec's concrete
scenarios. -/
def intCmp : Int → Int → Int := fun a b =>
  if a < b then -1 else if a = b then 0 else 1

/-! ### Slice shrink helper (internal/slice/shrink.go)

A Go slice is a pair of its contents and its backing capacity.
`calCapacity` embeds the Go function of the same name; Go's integer
division panics on a zero divisor, embedded as `none`.  The Go source
short-circuits `&&`, so `c / l` is evaluated only on the branches
modelled below. -/

/-- Round a natural number to the nearest value (ties to even)
representable with a 24-bit significand: exactly IEEE-754 binary32
rounding of a nonnegative integer below the overflow range. -/
def rnd24 (n : Nat) : Nat :=
  if n < 2 ^ 24 then n
  else if n % 2 ^ (n.log2 - 23) < 2 ^ (n.log2 - 23 - 1) then
    n / 2 ^ (n.log2 - 23) * 2 ^ (n.log2 - 23)
  else if 2 ^ (n.log2 - 23 - 1) < n % 2 ^ (n.log2 - 23) then
    (n / 2 ^ (n.log2 - 23) + 1) * 2 ^ (n.log2 - 23)
  else if n / 2 ^ (n.log2 - 23) % 2 = 0 then
    n / 2 ^ (n.log2 - 23) * 2 ^ (n.log2 - 23)
  else (n / 2 ^ (n.log2 - 23) + 1) * 2 ^ (n.log2 - 23)

/-- Embedding of Go's `int(float32(c) * float32(factor))` with factor
0.625: since 0.625 = 5/8 is exact in binary32, the value is c rounded
to binary32, times 5 over 8, rounded to binary32, truncated toward
zero. -/
def float5div8 (c : Nat) : Nat := rnd24 (rnd24 c * 5) / 8

/-- calCapacity from internal/slice/shrink.go: the pure sizing decision
(new backing capacity, whether to reallocate) from capacity c and
length l.  The division c/l panics (none) when l = 0 and c > 64. -/
def calCapacity (c l : Nat) : Option (Nat × Bool) :=
  if c ≤ 64 then some (c, false)
  else
    if c > 2048 then
      if l = 0 then none
      else if c / l ≥ 2 then some (float5div8 c, true)
      else some (c, false)
    else
      if l = 0 then none
      else if c / l ≥ 4 then some (c / 2, true)
      else some (c, false)

structure GoSlice (T : Type) where
  data : List T
  cap : Nat

/-- Shrink from internal/slice/shrink.go: reallocates the slice to the
capacity chosen by calCapacity, preserving contents, or returns it
unchanged. -/
def Shrink {T : Type} (src : GoSlice T) : Option (GoSlice T) :=
  match calCapacity src.cap src.data.length with
  | none => none
  | some (n, changed) => if changed then some ⟨src.data, n⟩ else some src

/-- Go append on a slice: grows the backing capacity when it is
exhausted.  Go's growth policy is runtime specific; it is modelled as
doubling (at least fitting); no theorem depends on the grown value,
only on len being at most cap. -/
def goAppend {T : Type} (s : GoSlice T) (x : T) : GoSlice T :=
  { data := s.data ++ [x]
    cap := if s.data.length < s.cap then s.cap
           else max (s.data.length + 1) (2 * s.cap) }

/-! ### Priority queue (src/unnamed/part_001)

A binary min-heap in a 1-indexed slice: index 0 is a permanently unused
sentinel slot, the root lives at index 1. -/

inductive QueueError
  | outOfCapacity
  | emptyQueue
deriving DecidableEq

structure PriorityQueue (T : Type) where
  compare : Comparator T
  capacity : Int
  data : List T
  bcap : Nat

namespace PriorityQueue

variable {T : Type} [Inhabited T]

/-- Len: the number of queued elements (the slice length minus the
sentinel). -/
def Len (p : PriorityQueue T) : Int := (p.data.length : Int) - 1

/-- Cap: 0 for an unbounded queue, the configured ceiling otherwise. -/
def Cap (p : PriorityQueue T) : Int := p.capacity

def IsBoundless (p : PriorityQueue T) : Bool := decide (p.capacity ≤ 0)

def isFull (p : PriorityQueue T) : Bool :=
  decide (0 < p.capacity) && decide ((p.data.length : Int) - 1 = p.capacity)

def isEmpty (p : PriorityQueue T) : Bool := decide (p.data.length < 2)

/-- Peek: the root element, without mutation (part_001 lines 67-73). -/
def Peek (p : PriorityQueue T) : Except QueueError T :=
  if p.isEmpty then .error .emptyQueue else .ok (get1 p.data 1)

/-- The sift-up loop of Enqueue (part_001 lines 84-92): swap the node at
index `node` with its parent while the comparator says it precedes the
parent.  The Go loop needs no fuel (the index halves); any fuel of at
least `node` gives the loop's exact behaviour. -/
def siftUp (cmp : Comparator T) : Nat → List T → Nat → List T
  | 0, data, _ => data
  | fuel + 1, data, node =>
    if 0 < node / 2 ∧ cmp (get1 data node) (get1 data (node / 2)) < 0 then
      siftUp cmp fuel (setSwap data (node / 2) node) (node / 2)
    else data

/-- Enqueue (part_001 lines 76-95): reject when full, otherwise append
and sift up. -/
def Enqueue (p : PriorityQueue T) (t : T) : Except QueueError (PriorityQueue T) :=
  if p.isFull then .error .outOfCapacity
  else
    let s := goAppend ⟨p.data, p.bcap⟩ t
    .ok { p with
          data := siftUp p.compare s.data.length s.data (s.data.length - 1)
          bcap := s.cap }

/-- The sift-down loop (part_001 lines 123-139): move the node at `i`
down, swapping with its smaller child, while a child within bound `n`
precedes it.  Fuel of at least `n + 1 - i` gives the loop's exact
behaviour. -/
def heapify (cmp : Comparator T) : Nat → List T → Nat → Nat → List T
  | 0, data, _, _ => data
  | fuel + 1, data, n, i =>
    let m1 := if i * 2 ≤ n ∧ cmp (get1 data (i * 2)) (get1 data i) < 0
              then i * 2 else i
    let m2 := if i * 2 + 1 ≤ n ∧ cmp (get1 data (i * 2 + 1)) (get1 data m1) < 0
              then i * 2 + 1 else m1
    if m2 = i then data
    else heapify cmp fuel (setSwap data i m2) n m2

/-- shrinkIfNecessary (part_001 lines 116-120): the unbounded queue
shrinks its backing slice after a dequeue. -/
def shrinkIfNecessary (p : PriorityQueue T) : Option (PriorityQueue T) :=
  if p.IsBoundless then
    match Shrink ⟨p.data, p.bcap⟩ with
    | none => none
    | some s => some { p with data := s.data, bcap := s.cap }
  else some p

/-- Dequeue (part_001 lines 98-113): capture the root, move the last
element into the root slot, truncate, shrink when unbounded, sift the
root down.  A panic inside the shrink helper propagates as `none`. -/
def Dequeue (p : PriorityQueue T) :
    Option (Except QueueError (T × PriorityQueue T)) :=
  if p.isEmpty then some (.error .emptyQueue)
  else
    let pop := get1 p.data 1
    let d1 := p.data.set 1 (get1 p.data (p.data.length - 1))
    let d2 := d1.take (d1.length - 1)
    match shrinkIfNecessary { p with data := d2 } with
    | none => none
    | some p2 =>
      some (.ok (pop, { p2 with
        data := heapify p.compare p2.data.length p2.data (p2.data.length - 1) 1 }))

end PriorityQueue

/-- NewPriorityQueue (part_001 lines 142-153): capacity below 1 means
unbounded (initial backing capacity 64), otherwise bounded with backing
capacity one more than the ceiling.  The slice starts with the single
sentinel zero value. -/
def NewPriorityQueue (T : Type) [Inhabited T] (capacity : Int)
    (compare : Comparator T) : PriorityQueue T :=
  if capacity < 1 then
    { compare := compare, capacity := 0, data := [default], bcap := 64 }
  else
    { compare := compare, capacity := capacity, data := [default],
      bcap := (capacity + 1).toNat }

/-! ### Heap predicates

The spec's invariant: for every index i above 1 of the 1-indexed
backing slice, comparator(heap[i], heap[i/2]) is nonnegative. -/

/-- The min-heap invariant of the spec, over the whole slice. -/
def heapInv {T : Type} [Inhabited T] (cmp : Comparator T) (data : List T) : Prop :=
  ∀ i, i < data.length → 2 ≤ i → 0 ≤ cmp (get1 data i) (get1 data (i / 2))

instance heapInvDec {T : Type} [Inhabited T] (cmp : Comparator T)
    (data : List T) : Decidable (heapInv cmp data) := by
  unfold heapInv
  exact Nat.decidableBallLT _ _

/-- All parent edges hold except possibly the one out of index k (the
hole of a sift-up pass). -/
def heapInvExcept {T : Type} [Inhabited T] (cmp : Comparator T)
    (data : List T) (k : Nat) : Prop :=
  ∀ i, i < data.length → 2 ≤ i → i ≠ k →
    0 ≤ cmp (get1 data i) (get1 data (i / 2))

/-- All parent edges hold except possibly those into index i (the hole
of a sift-down pass). -/
def heapInvExceptChildren {T : Type} [Inhabited T] (cmp : Comparator T)
    (data : List T) (i : Nat) : Prop :=
  ∀ j, j < data.length → 2 ≤ j → j / 2 ≠ i →
    0 ≤ cmp (get1 data j) (get1 data (j / 2))

/-- The children of the hole k are already at or above k's parent, so a
swap through the hole keeps their edges intact. -/
def holeChildrenOk {T : Type} [Inhabited T] (cmp : Comparator T)
    (data : List T) (k : Nat) : Prop :=
  ∀ c, c < data.length → c / 2 = k → 2 ≤ k →
    0 ≤ cmp (get1 data c) (get1 data (k / 2))

/-- The states of a priority queue producible through its public
interface: construction, then successful enqueues and dequeues. -/
inductive Reachable {T : Type} [Inhabited T] (cmp : Comparator T) :
    PriorityQueue T → Prop
  | new (capacity : Int) : Reachable cmp (NewPriorityQueue T capacity cmp)
  | enq {p q : PriorityQueue T} {t : T} :
      Reachable cmp p → p.Enqueue t = .ok q → Reachable cmp q
  | deq {p q : PriorityQueue T} {v : T} :
      Reachable cmp p → p.Dequeue = some (.ok (v, q)) → Reachable cmp q

/-! ### Concrete queues for the spec scenario (capacity 2, ascending
integers) -/

def c8q0 : PriorityQueue Int := NewPriorityQueue Int 2 intCmp

def c8q1 : PriorityQueue Int := { c8q0 with data := [0, 5] }

def c8q2 : PriorityQueue Int := { c8q0 with data := [0, 3, 5] }

def c8q3 : PriorityQueue Int := { c8q0 with data := [0, 5] }

/-! ### Delay queue (src/queue/delay_queue.go)

The Delayable interface exposes a remaining delay; wall-clock instants
are embedded as integers, an element is its deadline, and Delay()
observed at instant now is deadline - now.  The mutex serialises every
heap access, so each locked critical section of Enqueue and Dequeue is
one function of the heap state and the current instant; the states
between two critical sections of one call are arbitrary (other
goroutines hold the lock), which the theorems quantify over. -/

structure Delayed where
  deadline : Int
deriving DecidableEq

instance : Inhabited Delayed := ⟨⟨0⟩⟩

/-- Delay() of a Delayable element, observed at instant now. -/
def Delayed.Delay (e : Delayed) (now : Int) : Int := e.deadline - now

/-- The comparator NewDelayQueue installs (lines 42-56): compare the
two remaining delays, observed at the same instant. -/
def delayCmp (now : Int) : Comparator Delayed := fun src dst =>
  if src.Delay now > dst.Delay now then 1
  else if src.Delay now = dst.Delay now then 0
  else -1

/-- NewDelayQueue (lines 37-61): a priority queue of Delayable elements
ordered by remaining delay. -/
def NewDelayQueue (c : Int) : PriorityQueue Delayed :=
  NewPriorityQueue Delayed c (delayCmp 0)

inductive DequeueAttempt
  | taken (v : Delayed) (q : PriorityQueue Delayed)
  | returnedErr (e : QueueError)
  | waitTimer (delay : Int)
  | waitEmpty
  | unexpectedErr (e : QueueError)
  | panic

/-- The first locked section of DelayQueue.Dequeue (lines 110-127):
peek; on a nonpositive remaining delay dequeue and return, otherwise
release and arm a timer for that delay; on empty wait for an enqueue;
any other peek error is surfaced as the unexpected-error return. -/
def tryDequeue (q : PriorityQueue Delayed) (now : Int) : DequeueAttempt :=
  match q.Peek with
  | .ok val =>
    if val.Delay now ≤ 0 then
      match q.Dequeue with
      | none => .panic
      | some (.ok (v, q')) => .taken v q'
      | some (.error e) => .returnedErr e
    else .waitTimer (val.Delay now)
  | .error .emptyQueue => .waitEmpty
  | .error e => .unexpectedErr e

inductive RecheckResult
  | taken (v : Delayed) (q : PriorityQueue Delayed)
  | returnedErr (e : QueueError)
  | continueLoop
  | panic

/-- The locked re-check after the timer fires (lines 131-142): re-peek;
if the head is gone or its delay is still positive, release the lock
and restart the loop; otherwise dequeue it. -/
def timerRecheck (q : PriorityQueue Delayed) (now : Int) : RecheckResult :=
  match q.Peek with
  | .error _ => .continueLoop
  | .ok val =>
    if val.Delay now > 0 then .continueLoop
    else
      match q.Dequeue with
      | none => .panic
      | some (.ok (v, q')) => .taken v q'
      | some (.error e) => .returnedErr e

inductive WaitChoice
  | ctxDone
  | timerFired
  | signalClosed

inductive DequeueOutcome
  | cancelled (q : PriorityQueue Delayed)
  | taken (v : Delayed) (q : PriorityQueue Delayed)
  | returnedErr (e : QueueError) (q : PriorityQueue Delayed)
  | unexpectedErr (e : QueueError) (q : PriorityQueue Delayed)
  | loopAgain (q : PriorityQueue Delayed)
  | panic

/-- One iteration of the DelayQueue.Dequeue loop (lines 103-160): the
ctx check at the top, the locked attempt, then the select on
cancellation, timer and enqueue signal.  `wait` names the select branch
that fires; `qT` and `nT` are the heap contents and instant at the
timer re-check (arbitrary, since other goroutines may have run).  Each
outcome carries the heap as left by this call. -/
def dequeueIter (q : PriorityQueue Delayed) (now : Int)
    (cancelledAtTop : Bool) (wait : WaitChoice)
    (qT : PriorityQueue Delayed) (nT : Int) : DequeueOutcome :=
  if cancelledAtTop then .cancelled q
  else match tryDequeue q now with
    | .taken v q' => .taken v q'
    | .returnedErr e => .returnedErr e q
    | .unexpectedErr e => .unexpectedErr e q
    | .panic => .panic
    | .waitEmpty =>
      match wait with
      | .ctxDone => .cancelled q
      | .timerFired => .loopAgain q
      | .signalClosed => .loopAgain q
    | .waitTimer _ =>
      match wait with
      | .ctxDone => .cancelled q
      | .signalClosed => .loopAgain q
      | .timerFired =>
        match timerRecheck qT nT with
        | .taken v q' => .taken v q'
        | .returnedErr e => .returnedErr e qT
        | .continueLoop => .loopAgain qT
        | .panic => .panic

inductive EnqueueOutcome
  | cancelled (q : PriorityQueue Delayed)
  | ok (q : PriorityQueue Delayed)
  | unexpectedErr (q : PriorityQueue Delayed)
  | waitCancelled (q : PriorityQueue Delayed)
  | loopAgain (q : PriorityQueue Delayed)

/-- One iteration of the DelayQueue.Enqueue loop (lines 63-94): the ctx
check at the top, the locked enqueue attempt, then on a full queue the
select on cancellation and the dequeue signal. -/
def enqueueIter (q : PriorityQueue Delayed) (t : Delayed)
    (cancelledAtTop cancelledWhileWaiting : Bool) : EnqueueOutcome :=
  if cancelledAtTop then .cancelled q
  else match q.Enqueue t with
    | .ok q' => .ok q'
    | .error .outOfCapacity =>
      if cancelledWhileWaiting then .waitCancelled q else .loopAgain q
    | .error _ => .unexpectedErr q

/-! ### Broadcast condition (src/queue/delay_queue.go lines 167-199)

Channels are embedded as allocation-numbered identifiers; the set of
closed channels is a list; the coupled mutex is a flag.  broadcast
additionally returns its effects in execution order. -/

structure CondState where
  nextCh : Nat
  closed : List Nat
  signal : Nat
  lockHeld : Bool
deriving DecidableEq

inductive CondEvent
  | makeChan (ch : Nat)
  | storeSignal (ch : Nat)
  | unlock
  | closeChan (ch : Nat)
deriving DecidableEq

/-- broadcast (lines 184-190): make a fresh channel, store it as the
current signal, release the coupled lock, then close the previous
channel. -/
def broadcast (s : CondState) : CondState × List CondEvent :=
  (⟨s.nextCh + 1, s.signal :: s.closed, s.nextCh, false⟩,
   [.makeChan s.nextCh, .storeSignal s.nextCh, .unlock,
    .closeChan s.signal])

/-- signalCh (lines 195-199): read the current channel and release the
lock. -/
def signalCh (s : CondState) : CondState × Nat :=
  ({ s with lockHeld := false }, s.signal)

/-- Channel identifiers are allocated below nextCh and the current
signal channel is open. -/
def CondWF (s : CondState) : Prop :=
  s.signal < s.nextCh ∧ s.signal ∉ s.closed ∧ ∀ c ∈ s.closed, c < s.nextCh

/-- Concrete delay-queue states for the witnesses. -/
def dqElem : Delayed := ⟨5⟩

def dqReady : PriorityQueue Delayed :=
  { compare := delayCmp 0, capacity := 0, data := [⟨0⟩, ⟨5⟩], bcap := 64 }

def dqTaken : PriorityQueue Delayed := { dqReady with data := [⟨0⟩] }

def dqFull : PriorityQueue Delayed :=
  { compare := delayCmp 0, capacity := 1, data := [⟨0⟩, ⟨5⟩], bcap := 2 }

/-! ### Lock-free queue (src/unnamed/part_000)

Nodes live in an address-indexed store (addresses are allocation
order); an atomic pointer is an address, nil is none.  In an
uncontended execution every atomic load returns the current value and
every CAS succeeds, so each retry loop runs its straight-line path; a
load that would force a retry forever (impossible from well-formed
quiescent states, as proved below) is embedded as none, as is the nil
dereference after a CAS of head to a nil pointer. -/

structure Node (T : Type) where
  val : T
  next : Option Nat

structure ConcurrentLinkedQueue (T : Type) where
  nodes : List (Node T)
  head : Nat
  tail : Nat

def getNode {T : Type} [Inhabited T] (nodes : List (Node T)) (i : Nat) :
    Node T :=
  nodes.getD i ⟨default, none⟩

/-- NewConcurrentLinkedQueue (part_000 lines 33-41): a single empty
sentinel node, head and tail both pointing at it. -/
def NewConcurrentLinkedQueue (T : Type) [Inhabited T] :
    ConcurrentLinkedQueue T :=
  { nodes := [⟨default, none⟩], head := 0, tail := 0 }

namespace ConcurrentLinkedQueue

/-- Enqueue (part_000 lines 44-68), uncontended: load the tail; if its
successor is non-nil the loop would retry (none — unreachable from a
quiescent well-formed state); otherwise CAS the successor in and CAS
the queue tail forward.  Returns the Go nil error on success. -/
def Enqueue {T : Type} [Inhabited T] (c : ConcurrentLinkedQueue T)
    (t : T) : Option (ConcurrentLinkedQueue T × Option QueueError) :=
  let newPtr := c.nodes.length
  let tail := getNode c.nodes c.tail
  match tail.next with
  | some _ => none
  | none =>
    some ({ nodes := (c.nodes ++ [(⟨t, none⟩ : Node T)]).set c.tail
              ⟨tail.val, some newPtr⟩,
            head := c.head, tail := newPtr }, none)

/-- Dequeue (part_000 lines 71-95), uncontended: head = tail is the
empty condition; otherwise head is CASed to its successor and the
successor's value returned (a nil successor would be dereferenced:
none, unreachable from well-formed states). -/
def Dequeue {T : Type} [Inhabited T] (c : ConcurrentLinkedQueue T) :
    Option (Except QueueError (T × ConcurrentLinkedQueue T)) :=
  if c.head = c.tail then some (.error .emptyQueue)
  else
    match (getNode c.nodes c.head).next with
    | none => none
    | some hn =>
      some (.ok ((getNode c.nodes hn).val, { c with head := hn }))

end ConcurrentLinkedQueue

/-- The list of addresses reached from i by following successor
links. -/
inductive IsChain {T : Type} [Inhabited T] (nodes : List (Node T)) :
    Nat → List Nat → Prop
  | nil {i : Nat} : (getNode nodes i).next = none → IsChain nodes i []
  | cons {i j : Nat} {l : List Nat} : (getNode nodes i).next = some j →
      IsChain nodes j l → IsChain nodes i (j :: l)

/-- Well-formed quiescent queue: head and tail valid, successor links
strictly increasing and in range, and tail is the end of the chain
from head. -/
def CLQWF {T : Type} [Inhabited T] (c : ConcurrentLinkedQueue T) : Prop :=
  c.head < c.nodes.length ∧ c.tail < c.nodes.length ∧
  (∀ i j, (getNode c.nodes i).next = some j → i < j ∧ j < c.nodes.length) ∧
  ∃ chain, IsChain c.nodes c.head chain ∧ chain.getLastD c.head = c.tail

/-- The logical contents: the values on the chain past the head
sentinel. -/
def CLQContents {T : Type} [Inhabited T] (c : ConcurrentLinkedQueue T)
    (l : List T) : Prop :=
  ∃ chain, IsChain c.nodes c.head chain ∧
    l = chain.map (fun a => (getNode c.nodes a).val)

/-- Concrete lock-free queue after one enqueue of 7, for the
witness. -/
def clq1 : ConcurrentLinkedQueue Int :=
  { nodes := [⟨0, some 1⟩, ⟨7, none⟩], head := 0, tail := 1 }

/-! ### Interleaved executions of the lock-free queue

Every atomic instruction of the Go Enqueue and Dequeue (a pointer load,
a pointer CAS, an allocation) is one transition; any number of threads
interleave them arbitrarily.  A thread is a program counter over the
instructions of the operation it is running.  Two ghost logs record,
in order, the addresses whose link CAS succeeded (with the linking
thread, `linkLog`) and the addresses returned by successful head CASes
(`deqLog`).  A CAS of head to a nil pointer would be followed by a nil
dereference in the Go code; the invariant proves the pc holding a nil
successor is unreachable. -/

inductive EnqPc
  | loopTop
  | readNext (t : Nat)
  | casNext (t : Nat) (tn : Option Nat)
  | casTail (t : Nat)
deriving DecidableEq

inductive DeqPc
  | loopTop
  | readTail (h : Nat)
  | check (h t : Nat)
  | casHead (h : Nat) (n : Option Nat)
deriving DecidableEq

inductive ThreadSt
  | idle
  | enq (addr : Nat) (pc : EnqPc)
  | deq (pc : DeqPc)
deriving DecidableEq

structure MSState (T : Type) where
  nodes : List (Node T)
  head : Nat
  tail : Nat
  ops : Nat → ThreadSt
  linkLog : List (Nat × Nat)
  deqLog : List Nat

/-- The full chain of ever-linked nodes: the original sentinel followed
by the linked addresses in link order. -/
def fc {T : Type} (s : MSState T) : List Nat := 0 :: s.linkLog.map Prod.snd

def MSInit (T : Type) [Inhabited T] : MSState T :=
  { nodes := [⟨default, none⟩], head := 0, tail := 0,
    ops := fun _ => .idle, linkLog := [], deqLog := [] }

/-- One interleaved transition: some thread executes its next atomic
instruction of part_000's Enqueue (lines 44-68) or Dequeue (lines
71-95). -/
inductive MSStep {T : Type} [Inhabited T] : MSState T → MSState T → Prop
  | startEnq (s : MSState T) (tid : Nat) (v : T) :
      s.ops tid = .idle →
      MSStep s { s with
                 nodes := s.nodes ++ [(⟨v, none⟩ : Node T)],
                 ops := Function.update s.ops tid
                   (.enq s.nodes.length .loopTop) }
  | readTail (s : MSState T) (tid addr : Nat) :
      s.ops tid = .enq addr .loopTop →
      MSStep s { s with
                 ops := Function.update s.ops tid
                   (.enq addr (.readNext s.tail)) }
  | readTailNext (s : MSState T) (tid addr t : Nat) :
      s.ops tid = .enq addr (.readNext t) →
      MSStep s { s with
                 ops := Function.update s.ops tid
                   (.enq addr (.casNext t (getNode s.nodes t).next)) }
  | casNextRetry (s : MSState T) (tid addr t tn : Nat) :
      s.ops tid = .enq addr (.casNext t (some tn)) →
      MSStep s { s with
                 ops := Function.update s.ops tid (.enq addr .loopTop) }
  | casNextFail (s : MSState T) (tid addr t : Nat) :
      s.ops tid = .enq addr (.casNext t none) →
      (getNode s.nodes t).next ≠ none →
      MSStep s { s with
                 ops := Function.update s.ops tid (.enq addr .loopTop) }
  | casNextSucceed (s : MSState T) (tid addr t : Nat) :
      s.ops tid = .enq addr (.casNext t none) →
      (getNode s.nodes t).next = none →
      MSStep s { s with
                 nodes := s.nodes.set t ⟨(getNode s.nodes t).val, some addr⟩,
                 linkLog := s.linkLog ++ [(tid, addr)],
                 ops := Function.update s.ops tid (.enq addr (.casTail t)) }
  | casTailStep (s : MSState T) (tid addr t : Nat) :
      s.ops tid = .enq addr (.casTail t) →
      MSStep s { s with
                 tail := if s.tail = t then addr else s.tail,
                 ops := Function.update s.ops tid .idle }
  | startDeq (s : MSState T) (tid : Nat) :
      s.ops tid = .idle →
      MSStep s { s with ops := Function.update s.ops tid (.deq .loopTop) }
  | readHead (s : MSState T) (tid : Nat) :
      s.ops tid = .deq .loopTop →
      MSStep s { s with
                 ops := Function.update s.ops tid
                   (.deq (.readTail s.head)) }
  | readTail2 (s : MSState T) (tid h : Nat) :
      s.ops tid = .deq (.readTail h) →
      MSStep s { s with
                 ops := Function.update s.ops tid
                   (.deq (.check h s.tail)) }
  | deqEmpty (s : MSState T) (tid h : Nat) :
      s.ops tid = .deq (.check h h) →
      MSStep s { s with ops := Function.update s.ops tid .idle }
  | readHeadNext (s : MSState T) (tid h t : Nat) :
      s.ops tid = .deq (.check h t) → h ≠ t →
      MSStep s { s with
                 ops := Function.update s.ops tid
                   (.deq (.casHead h (getNode s.nodes h).next)) }
  | casHeadFail (s : MSState T) (tid h : Nat) (n : Option Nat) :
      s.ops tid = .deq (.casHead h n) → s.head ≠ h →
      MSStep s { s with
                 ops := Function.update s.ops tid (.deq .loopTop) }
  | casHeadSucceed (s : MSState T) (tid h n : Nat) :
      s.ops tid = .deq (.casHead h (some n)) → s.head = h →
      MSStep s { s with
                 head := n,
                 deqLog := s.deqLog ++ [n],
                 ops := Function.update s.ops tid .idle }

inductive MSReachable {T : Type} [Inhabited T] : MSState T → Prop
  | init : MSReachable (MSInit T)
  | step {s s' : MSState T} : MSReachable s → MSStep s s' → MSReachable s'

/-- The tail currently sits at chain position m or beyond. -/
def TailGe {T : Type} (s : MSState T) (m : Nat) : Prop :=
  ∃ jt, jt < (fc s).length ∧ (fc s).getD jt 0 = s.tail ∧ m ≤ jt

/-- An allocated but not yet linked node. -/
def Unlinked {T : Type} [Inhabited T] (s : MSState T) (addr : Nat) : Prop :=
  addr < s.nodes.length ∧ addr ∉ fc s ∧ (getNode s.nodes addr).next = none

def EnqInv {T : Type} [Inhabited T] (s : MSState T) (addr : Nat) :
    EnqPc → Prop
  | .loopTop => Unlinked s addr
  | .readNext t => Unlinked s addr ∧ t ∈ fc s
  | .casNext t _ => Unlinked s addr ∧ t ∈ fc s
  | .casTail t => ∃ j, j + 1 < (fc s).length ∧ (fc s).getD j 0 = t ∧
      (fc s).getD (j + 1) 0 = addr

def DeqInv {T : Type} [Inhabited T] (s : MSState T) : DeqPc → Prop
  | .loopTop => True
  | .readTail h => ∃ j, j < (fc s).length ∧ (fc s).getD j 0 = h ∧
      j ≤ s.deqLog.length
  | .check h t => ∃ j jt, j < (fc s).length ∧ (fc s).getD j 0 = h ∧
      j ≤ s.deqLog.length ∧ jt < (fc s).length ∧ (fc s).getD jt 0 = t ∧
      j ≤ jt ∧ TailGe s jt
  | .casHead h n => ∃ j, j + 1 < (fc s).length ∧ (fc s).getD j 0 = h ∧
      n = some ((fc s).getD (j + 1) 0) ∧ TailGe s (j + 1)

def OpInv {T : Type} [Inhabited T] (s : MSState T) : ThreadSt → Prop
  | .idle => True
  | .enq addr pc => EnqInv s addr pc
  | .deq pc => DeqInv s pc

/-- The inductive invariant of the interleaved system. -/
structure MSInv {T : Type} [Inhabited T] (s : MSState T) : Prop where
  hlen0 : 0 < s.nodes.length
  hchain : IsChain s.nodes 0 (s.linkLog.map Prod.snd)
  helems : ∀ a ∈ fc s, a < s.nodes.length
  hnodup : (fc s).Nodup
  hdlen : s.deqLog.length ≤ s.linkLog.length
  hdeq : s.deqLog = (s.linkLog.map Prod.snd).take s.deqLog.length
  hhead : s.head = (fc s).getD s.deqLog.length 0
  htail : TailGe s s.deqLog.length
  hops : ∀ tid, OpInv s (s.ops tid)
  hdist : ∀ tid1 tid2 a1 p1 a2 p2, tid1 ≠ tid2 →
      s.ops tid1 = .enq a1 p1 → s.ops tid2 = .enq a2 p2 → a1 ≠ a2

/-! ## Theorems -/

theorem get1_eq_getElem {T : Type} [Inhabited T] (l : List T) (i : Nat)
    (h : i < l.length) : get1 l i = l[i] := by
  simp [get1, List.getD_eq_getElem?_getD, List.getElem?_eq_getElem h]

theorem length_setSwap {T : Type} [Inhabited T] (l : List T) (i j : Nat) :
    (setSwap l i j).length = l.length := by
  simp [setSwap]

theorem get1_set_self {T : Type} [Inhabited T] (l : List T) (i : Nat) (a : T)
    (h : i < l.length) : get1 (l.set i a) i = a := by
  simp [get1, List.getD_eq_getElem?_getD, List.getElem?_set_self, h]

theorem get1_set_ne {T : Type} [Inhabited T] (l : List T) (i j : Nat) (a : T)
    (hne : i ≠ j) : get1 (l.set i a) j = get1 l j := by
  simp [get1, List.getD_eq_getElem?_getD, List.getElem?_set_ne hne]

theorem get1_setSwap_left {T : Type} [Inhabited T] (l : List T) (i j : Nat)
    (hi : i < l.length) : get1 (setSwap l i j) i = get1 l j := by
  unfold setSwap
  rcases eq_or_ne j i with rfl | hne
  · rw [get1_set_self _ _ _ (by simpa using hi)]
  · rw [get1_set_ne _ _ _ _ hne, get1_set_self _ _ _ hi]

theorem get1_setSwap_right {T : Type} [Inhabited T] (l : List T) (i j : Nat)
    (hj : j < l.length) : get1 (setSwap l i j) j = get1 l i := by
  unfold setSwap
  rw [get1_set_self _ _ _ (by simpa using hj)]

theorem get1_setSwap_other {T : Type} [Inhabited T] (l : List T) (i j k : Nat)
    (hik : i ≠ k) (hjk : j ≠ k) : get1 (setSwap l i j) k = get1 l k := by
  unfold setSwap
  rw [get1_set_ne _ _ _ _ hjk, get1_set_ne _ _ _ _ hik]

theorem get1_append_lt {T : Type} [Inhabited T] (l l' : List T) (i : Nat)
    (h : i < l.length) : get1 (l ++ l') i = get1 l i := by
  simp [get1, List.getD_eq_getElem?_getD, List.getElem?_append_left h]

theorem get1_take {T : Type} [Inhabited T] (l : List T) (m i : Nat)
    (h : i < m) : get1 (l.take m) i = get1 l i := by
  simp [get1, List.getD_eq_getElem?_getD, List.getElem?_take_of_lt (l := l) h]

theorem TotalCmp.refl {T : Type} {cmp : T → T → Int} (h : TotalCmp cmp)
    (a : T) : cmp a a = 0 := by
  have := h.antisym a a
  omega

theorem TotalCmp.not_lt {T : Type} {cmp : T → T → Int} (h : TotalCmp cmp)
    {a b : T} (hab : ¬ cmp a b < 0) : cmp b a ≤ 0 := by
  have := h.antisym a b
  omega

theorem intCmp_total : TotalCmp intCmp := by
  constructor
  · intro a b
    simp only [intCmp]
    split_ifs <;> omega
  · intro a b c
    simp only [intCmp]
    split_ifs <;> omega

theorem rnd24_bounds (n : Nat) :
    rnd24 n ≤ n + n / 2 ^ 24 ∧ n ≤ rnd24 n + n / 2 ^ 24 := by
  unfold rnd24
  split
  · omega
  next h =>
    have h24 : 2 ^ 24 ≤ n := Nat.le_of_not_lt h
    have hp24 : (0 : Nat) < 2 ^ 24 := by norm_num
    have hn0 : n ≠ 0 := by omega
    have hlog : 24 ≤ n.log2 := (Nat.le_log2 hn0).mpr h24
    have hpow : 2 ^ (n.log2 - 23 + 23) ≤ n := by
      have h1 := Nat.log2_self_le hn0
      have h2 : n.log2 - 23 + 23 = n.log2 := by omega
      rw [h2]; exact h1
    have hposE : (0 : Nat) < 2 ^ (n.log2 - 23) := Nat.pos_pow_of_pos _ (by norm_num)
    have hsplit : 2 ^ (n.log2 - 23 - 1) + 2 ^ (n.log2 - 23 - 1) = 2 ^ (n.log2 - 23) := by
      rw [← Nat.two_mul, ← pow_succ']
      congr 1
      omega
    have hhalf : 2 ^ (n.log2 - 23 - 1) ≤ n / 2 ^ 24 := by
      rw [Nat.le_div_iff_mul_le hp24]
      calc 2 ^ (n.log2 - 23 - 1) * 2 ^ 24 = 2 ^ (n.log2 - 23 - 1 + 24) := by rw [pow_add]
        _ = 2 ^ (n.log2 - 23 + 23) := by congr 1; omega
        _ ≤ n := hpow
    have hdm : n / 2 ^ (n.log2 - 23) * 2 ^ (n.log2 - 23) + n % 2 ^ (n.log2 - 23) = n := by
      rw [Nat.mul_comm]; exact Nat.div_add_mod n _
    have hmod : n % 2 ^ (n.log2 - 23) < 2 ^ (n.log2 - 23) := Nat.mod_lt _ hposE
    have hsucc : (n / 2 ^ (n.log2 - 23) + 1) * 2 ^ (n.log2 - 23)
        = n / 2 ^ (n.log2 - 23) * 2 ^ (n.log2 - 23) + 2 ^ (n.log2 - 23) :=
      Nat.succ_mul _ _
    split_ifs <;> omega

/-- The binary32 five-eighths computation deviates from the exact
rational 5c/8 by at most the two rounding steps. -/
theorem float5div8_bounds (c : Nat) :
    8 * float5div8 c ≤ 5 * c + 16 * (c / 2 ^ 24) + 48 ∧
    5 * c ≤ 8 * float5div8 c + 16 * (c / 2 ^ 24) + 48 := by
  have h1 := rnd24_bounds c
  have h2 := rnd24_bounds (rnd24 c * 5)
  have h3 : float5div8 c = rnd24 (rnd24 c * 5) / 8 := rfl
  omega

/-- Shrinking to five eighths never lands below half the old capacity,
hence never below a length at most half the capacity. -/
theorem float5div8_ge (c l : Nat) (hl : 2 * l ≤ c) : l ≤ float5div8 c := by
  have h1 := rnd24_bounds c
  have h2 := rnd24_bounds (rnd24 c * 5)
  have h3 : float5div8 c = rnd24 (rnd24 c * 5) / 8 := rfl
  omega

theorem calCapacity_small (c l : Nat) (h : c ≤ 64) :
    calCapacity c l = some (c, false) := by
  simp [calCapacity, h]

theorem calCapacity_large (c l : Nat) (h2048 : 2048 < c) (hl : l ≠ 0)
    (hdiv : 2 ≤ c / l) : calCapacity c l = some (float5div8 c, true) := by
  have h64 : ¬ c ≤ 64 := by omega
  simp [calCapacity, h64, h2048, hl, hdiv]

theorem calCapacity_mid (c l : Nat) (h64 : 64 < c) (h2048 : c ≤ 2048)
    (hl : l ≠ 0) (hdiv : 4 ≤ c / l) :
    calCapacity c l = some (c / 2, true) := by
  have h64' : ¬ c ≤ 64 := by omega
  have h2048' : ¬ c > 2048 := by omega
  simp [calCapacity, h64', h2048', hl, hdiv]

/-- With a zero length and capacity above the no-shrink threshold, the
Go code evaluates c / l with l = 0: a division-by-zero panic. -/
theorem calCapacity_div_zero (c : Nat) (hc : 64 < c) :
    calCapacity c 0 = none := by
  have h64' : ¬ c ≤ 64 := by omega
  simp only [calCapacity, if_neg h64']
  split_ifs <;> rfl

theorem calCapacity_ne_none (c l : Nat) (hl : l ≠ 0) :
    calCapacity c l ≠ none := by
  unfold calCapacity
  split_ifs <;> simp

/-- The sizing decision never returns a capacity below the length. -/
theorem calCapacity_conservative (c l : Nat) (hl : 1 ≤ l) (hlc : l ≤ c) :
    ∃ n changed, calCapacity c l = some (n, changed) ∧ l ≤ n := by
  have hl0 : l ≠ 0 := by omega
  by_cases h64 : c ≤ 64
  · exact ⟨c, false, calCapacity_small c l h64, hlc⟩
  by_cases h2048 : 2048 < c
  · by_cases hdiv : 2 ≤ c / l
    · refine ⟨float5div8 c, true, calCapacity_large c l h2048 hl0 hdiv, ?_⟩
      apply float5div8_ge
      have := (Nat.le_div_iff_mul_le (by omega : 0 < l)).mp hdiv
      omega
    · refine ⟨c, false, ?_, hlc⟩
      simp [calCapacity, h64, h2048, hl0, hdiv]
  · by_cases hdiv : 4 ≤ c / l
    · refine ⟨c / 2, true, calCapacity_mid c l (by omega) (by omega) hl0 hdiv, ?_⟩
      have := (Nat.le_div_iff_mul_le (by omega : 0 < l)).mp hdiv
      omega
    · refine ⟨c, false, ?_, hlc⟩
      simp [calCapacity, h64, h2048, hl0, hdiv]

/-- Shrink on a slice of nonzero length never panics, preserves the
contents, and never drops the capacity below the length. -/
theorem Shrink_spec {T : Type} (s : GoSlice T) (h1 : 1 ≤ s.data.length)
    (h2 : s.data.length ≤ s.cap) :
    ∃ s', Shrink s = some s' ∧ s'.data = s.data ∧ s.data.length ≤ s'.cap := by
  obtain ⟨n, ch, hcc, hn⟩ := calCapacity_conservative s.cap s.data.length h1 h2
  unfold Shrink
  rw [hcc]
  cases ch
  · exact ⟨s, by simp, rfl, h2⟩
  · exact ⟨⟨s.data, n⟩, by simp, rfl, hn⟩

theorem Shrink_ne_none {T : Type} (s : GoSlice T) (h1 : s.data.length ≠ 0) :
    Shrink s ≠ none := by
  unfold Shrink
  cases hcc : calCapacity s.cap s.data.length with
  | none => exact absurd hcc (calCapacity_ne_none s.cap s.data.length h1)
  | some p =>
    cases p
    split <;> simp_all
    split <;> simp

theorem TotalCmp.ge_trans {T : Type} {cmp : T → T → Int} (h : TotalCmp cmp)
    {a b c : T} (h1 : 0 ≤ cmp a b) (h2 : 0 ≤ cmp b c) : 0 ≤ cmp a c := by
  have e1 := h.antisym a b
  have e2 := h.antisym b c
  have e3 := h.antisym a c
  have := h.le_trans c b a (by omega) (by omega)
  omega

open PriorityQueue in
theorem siftUp_length {T : Type} [Inhabited T] (cmp : Comparator T)
    (fuel : Nat) (data : List T) (node : Nat) :
    (siftUp cmp fuel data node).length = data.length := by
  induction fuel generalizing data node with
  | zero => rfl
  | succ fuel ih =>
    simp only [siftUp]
    split
    · rw [ih, length_setSwap]
    · rfl

open PriorityQueue in
theorem siftUp_step {T : Type} [Inhabited T] {cmp : Comparator T}
    (hT : TotalCmp cmp) {data : List T} {k : Nat}
    (hk2 : 2 ≤ k) (hklen : k < data.length)
    (hlt : cmp (get1 data k) (get1 data (k / 2)) ≤ 0)
    (ha : heapInvExcept cmp data k) (hb : holeChildrenOk cmp data k) :
    heapInvExcept cmp (setSwap data (k / 2) k) (k / 2) ∧
    holeChildrenOk cmp (setSwap data (k / 2) k) (k / 2) := by
  have hp1 : 1 ≤ k / 2 := by omega
  have hpk : k / 2 ≠ k := by omega
  have hplen : k / 2 < data.length := by omega
  constructor
  · intro i hi h2 hip
    rw [length_setSwap] at hi
    by_cases hik : i = k
    · subst hik
      have hdiv : i / 2 = i / 2 := rfl
      rw [get1_setSwap_right _ _ _ hklen, get1_setSwap_left _ _ _ hplen]
      have := hT.antisym (get1 data i) (get1 data (i / 2))
      omega
    · by_cases hich : i / 2 = k
      · have h1 : k / 2 ≠ i := by omega
        rw [get1_setSwap_other _ _ _ _ h1 (Ne.symm hik), hich,
          get1_setSwap_right _ _ _ hklen]
        exact hb i hi hich (by omega)
      · by_cases hisib : i / 2 = k / 2
        · have h1 : k / 2 ≠ i := Ne.symm hip
          rw [get1_setSwap_other _ _ _ _ h1 (Ne.symm hik), hisib,
            get1_setSwap_left _ _ _ hplen]
          have hai := ha i hi h2 hik
          rw [hisib] at hai
          have e1 := hT.antisym (get1 data i) (get1 data (k / 2))
          have e2 := hT.antisym (get1 data i) (get1 data k)
          have := hT.le_trans (get1 data k) (get1 data (k / 2)) (get1 data i)
            (by omega) (by omega)
          omega
        · rw [get1_setSwap_other _ _ _ _ (Ne.symm hip) (Ne.symm hik),
            get1_setSwap_other _ _ _ _ (Ne.symm hisib) (Ne.symm hich)]
          exact ha i hi h2 hik
  · intro c hc hcp hp2
    rw [length_setSwap] at hc
    have hppk : k ≠ k / 2 / 2 := by omega
    have hppp : k / 2 ≠ k / 2 / 2 := by omega
    rw [get1_setSwap_other _ _ _ _ hppp hppk]
    by_cases hck : c = k
    · subst hck
      rw [get1_setSwap_right _ _ _ hklen]
      exact ha (c / 2) (by omega) (by omega) (by omega)
    · have h1 : k / 2 ≠ c := by omega
      rw [get1_setSwap_other _ _ _ _ h1 (Ne.symm hck)]
      have hc1 := ha c hc (by omega) hck
      rw [hcp] at hc1
      have hc2 := ha (k / 2) hplen (by omega) hpk
      exact hT.ge_trans hc1 hc2

open PriorityQueue in
theorem siftUp_heapInv {T : Type} [Inhabited T] {cmp : Comparator T}
    (hT : TotalCmp cmp) (fuel : Nat) :
    ∀ (data : List T) (k : Nat), k ≤ fuel → 1 ≤ k → k < data.length →
    heapInvExcept cmp data k → holeChildrenOk cmp data k →
    heapInv cmp (siftUp cmp fuel data k) := by
  induction fuel with
  | zero => intro data k hf hk; omega
  | succ fuel ih =>
    intro data k hf hk hklen ha hb
    simp only [siftUp]
    split
    · next hguard =>
      obtain ⟨hp, hc⟩ := hguard
      have hk2 : 2 ≤ k := by omega
      obtain ⟨ha2, hb2⟩ := siftUp_step hT hk2 hklen (le_of_lt hc) ha hb
      exact ih _ (k / 2) (by omega) (by omega)
        (by rw [length_setSwap]; omega) ha2 hb2
    · next hguard =>
      intro i hi h2
      by_cases hik : i = k
      · subst hik
        have : ¬ cmp (get1 data i) (get1 data (i / 2)) < 0 := by
          intro hcon
          exact hguard ⟨by omega, hcon⟩
        omega
      · exact ha i hi h2 hik

open PriorityQueue in
theorem heapify_length {T : Type} [Inhabited T] (cmp : Comparator T)
    (fuel : Nat) : ∀ (data : List T) (n i : Nat),
    (heapify cmp fuel data n i).length = data.length := by
  induction fuel with
  | zero => intro data n i; rfl
  | succ fuel ih =>
    intro data n i
    simp only [heapify]
    repeat' split
    all_goals first | rfl | (rw [ih, length_setSwap])

open PriorityQueue in
theorem heapify_step {T : Type} [Inhabited T] {cmp : Comparator T}
    (hT : TotalCmp cmp) {data : List T} {n i m : Nat}
    (hlen : n + 1 = data.length) (hi : 1 ≤ i) (him : m / 2 = i) (hmn : m ≤ n)
    (hle : cmp (get1 data m) (get1 data i) ≤ 0)
    (hmin : ∀ s, s ≤ n → s / 2 = i → 0 ≤ cmp (get1 data s) (get1 data m))
    (ha : heapInvExceptChildren cmp data i) (hb : holeChildrenOk cmp data i) :
    heapInvExceptChildren cmp (setSwap data i m) m ∧
    holeChildrenOk cmp (setSwap data i m) m := by
  have hmi : i < m := by omega
  have hmlen : m < data.length := by omega
  have hilen : i < data.length := by omega
  constructor
  · intro j hj h2 hjm
    rw [length_setSwap] at hj
    by_cases hjm' : j = m
    · subst hjm'
      rw [get1_setSwap_right _ _ _ hmlen, him, get1_setSwap_left _ _ _ hilen]
      have := hT.antisym (get1 data i) (get1 data j)
      omega
    · by_cases hji : j / 2 = i
      · have hjneqi : j ≠ i := by omega
        rw [get1_setSwap_other _ _ _ _ (Ne.symm hjneqi) (Ne.symm hjm'), hji,
          get1_setSwap_left _ _ _ hilen]
        exact hmin j (by omega) hji
      · by_cases hjieq : j = i
        · subst hjieq
          rw [get1_setSwap_left _ _ _ hilen,
            get1_setSwap_other _ _ _ _ (by omega) (by omega)]
          exact hb m hmlen him (by omega)
        · rw [get1_setSwap_other _ _ _ _ (Ne.symm hjieq) (Ne.symm hjm'),
            get1_setSwap_other _ _ _ _ (by omega) (by omega)]
          exact ha j hj h2 hji
  · intro c hc hcm hm2
    rw [length_setSwap] at hc
    have hci : i ≠ c := by omega
    have hcm' : m ≠ c := by omega
    rw [get1_setSwap_other _ _ _ _ hci hcm', him, get1_setSwap_left _ _ _ hilen]
    have h1 := ha c hc (by omega) (by omega)
    rw [hcm] at h1
    exact h1

open PriorityQueue in
theorem heapify_exit {T : Type} [Inhabited T] {cmp : Comparator T}
    {data : List T} {n i : Nat} (hlen : n + 1 = data.length)
    (hL : ∀ s, s ≤ n → s / 2 = i → 0 ≤ cmp (get1 data s) (get1 data i))
    (ha : heapInvExceptChildren cmp data i) : heapInv cmp data := by
  intro j hj h2
  by_cases hji : j / 2 = i
  · have := hL j (by omega) hji
    rw [hji]
    exact this
  · exact ha j hj h2 hji

open PriorityQueue in
theorem heapify_heapInv {T : Type} [Inhabited T] {cmp : Comparator T}
    (hT : TotalCmp cmp) (fuel : Nat) :
    ∀ (data : List T) (n i : Nat), n + 1 = data.length → n + 1 ≤ fuel + i →
      1 ≤ i → heapInvExceptChildren cmp data i → holeChildrenOk cmp data i →
      heapInv cmp (heapify cmp fuel data n i) := by
  induction fuel with
  | zero =>
    intro data n i hn hf hi ha _hb
    refine heapify_exit hn ?_ ha
    intro s hs hsi
    omega
  | succ fuel ih =>
    intro data n i hn hf hi ha hb
    simp only [heapify]
    by_cases hc1 : i * 2 ≤ n ∧ cmp (get1 data (i * 2)) (get1 data i) < 0
    · rw [if_pos hc1]
      by_cases hc2 : i * 2 + 1 ≤ n ∧
          cmp (get1 data (i * 2 + 1)) (get1 data (i * 2)) < 0
      · rw [if_pos hc2, if_neg (by omega : ¬ i * 2 + 1 = i)]
        have hle : cmp (get1 data (i * 2 + 1)) (get1 data i) ≤ 0 :=
          hT.le_trans _ _ _ (le_of_lt hc2.2) (le_of_lt hc1.2)
        have hmin : ∀ s, s ≤ n → s / 2 = i →
            0 ≤ cmp (get1 data s) (get1 data (i * 2 + 1)) := by
          intro s hs hsi
          have : s = i * 2 ∨ s = i * 2 + 1 := by omega
          rcases this with rfl | rfl
          · have := hT.antisym (get1 data (i * 2 + 1)) (get1 data (i * 2))
            omega
          · have := hT.refl (get1 data (i * 2 + 1))
            omega
        obtain ⟨ha2, hb2⟩ := heapify_step hT hn hi (by omega) hc2.1 hle hmin ha hb
        exact ih _ n (i * 2 + 1) (by rw [length_setSwap]; omega) (by omega)
          (by omega) ha2 hb2
      · rw [if_neg hc2, if_neg (by omega : ¬ i * 2 = i)]
        have hmin : ∀ s, s ≤ n → s / 2 = i →
            0 ≤ cmp (get1 data s) (get1 data (i * 2)) := by
          intro s hs hsi
          have : s = i * 2 ∨ s = i * 2 + 1 := by omega
          rcases this with rfl | rfl
          · have := hT.refl (get1 data (i * 2))
            omega
          · have hnc : ¬ cmp (get1 data (i * 2 + 1)) (get1 data (i * 2)) < 0 :=
              fun hcon => hc2 ⟨hs, hcon⟩
            omega
        obtain ⟨ha2, hb2⟩ := heapify_step hT hn hi (by omega) hc1.1
          (le_of_lt hc1.2) hmin ha hb
        exact ih _ n (i * 2) (by rw [length_setSwap]; omega) (by omega)
          (by omega) ha2 hb2
    · rw [if_neg hc1]
      by_cases hc2 : i * 2 + 1 ≤ n ∧
          cmp (get1 data (i * 2 + 1)) (get1 data i) < 0
      · rw [if_pos hc2, if_neg (by omega : ¬ i * 2 + 1 = i)]
        have hmin : ∀ s, s ≤ n → s / 2 = i →
            0 ≤ cmp (get1 data s) (get1 data (i * 2 + 1)) := by
          intro s hs hsi
          have : s = i * 2 ∨ s = i * 2 + 1 := by omega
          rcases this with rfl | rfl
          · have hnc : ¬ cmp (get1 data (i * 2)) (get1 data i) < 0 :=
              fun hcon => hc1 ⟨hs, hcon⟩
            have e1 := hT.antisym (get1 data (i * 2)) (get1 data i)
            have e2 := hT.antisym (get1 data (i * 2)) (get1 data (i * 2 + 1))
            have := hT.le_trans (get1 data (i * 2 + 1)) (get1 data i)
              (get1 data (i * 2)) (le_of_lt hc2.2) (by omega)
            omega
          · have := hT.refl (get1 data (i * 2 + 1))
            omega
        obtain ⟨ha2, hb2⟩ := heapify_step hT hn hi (by omega) hc2.1
          (le_of_lt hc2.2) hmin ha hb
        exact ih _ n (i * 2 + 1) (by rw [length_setSwap]; omega) (by omega)
          (by omega) ha2 hb2
      · rw [if_neg hc2, if_pos rfl]
        refine heapify_exit hn ?_ ha
        intro s hs hsi
        have : s = i * 2 ∨ s = i * 2 + 1 := by omega
        rcases this with rfl | rfl
        · have hnc : ¬ cmp (get1 data (i * 2)) (get1 data i) < 0 :=
            fun hcon => hc1 ⟨hs, hcon⟩
          omega
        · have hnc : ¬ cmp (get1 data (i * 2 + 1)) (get1 data i) < 0 :=
            fun hcon => hc2 ⟨hs, hcon⟩
          omega

theorem Shrink_data {T : Type} {s s' : GoSlice T} (h : Shrink s = some s') :
    s'.data = s.data := by
  unfold Shrink at h
  cases hcc : calCapacity s.cap s.data.length with
  | none => rw [hcc] at h; cases h
  | some p =>
    obtain ⟨n, changed⟩ := p
    rw [hcc] at h
    cases changed
    · simp only [Bool.false_eq_true, if_false, Option.some.injEq] at h
      rw [← h]
    · simp only [if_true, Option.some.injEq] at h
      rw [← h]

open PriorityQueue in
theorem shrinkIfNecessary_some {T : Type} [Inhabited T]
    {p q : PriorityQueue T} (h : p.shrinkIfNecessary = some q) :
    q.data = p.data ∧ q.compare = p.compare ∧ q.capacity = p.capacity := by
  unfold shrinkIfNecessary at h
  split at h
  · cases hs : Shrink (⟨p.data, p.bcap⟩ : GoSlice T) with
    | none => rw [hs] at h; cases h
    | some s =>
      rw [hs] at h
      have hdata : s.data = p.data := Shrink_data hs
      rw [← Option.some.inj h]
      exact ⟨hdata, rfl, rfl⟩
  · rw [← Option.some.inj h]
    exact ⟨rfl, rfl, rfl⟩

open PriorityQueue in
theorem shrinkIfNecessary_ne_none {T : Type} [Inhabited T]
    (p : PriorityQueue T) (h : p.data.length ≠ 0) :
    p.shrinkIfNecessary ≠ none := by
  unfold shrinkIfNecessary
  split
  · cases hs : Shrink (⟨p.data, p.bcap⟩ : GoSlice T) with
    | none => exact absurd hs (Shrink_ne_none _ h)
    | some s => simp
  · simp

/-- Appending the new element breaks at most the parent edge out of the
fresh last index. -/
theorem enqueue_except {T : Type} [Inhabited T] {cmp : Comparator T}
    {data : List T} {t : T} (hinv : heapInv cmp data) :
    heapInvExcept cmp (data ++ [t]) data.length := by
  intro i hi h2 hik
  rw [List.length_append, List.length_singleton] at hi
  have hilt : i < data.length := by omega
  rw [get1_append_lt _ _ _ hilt, get1_append_lt _ _ _ (by omega)]
  exact hinv i hilt h2

/-- The fresh last index has no children inside the slice. -/
theorem enqueue_children {T : Type} [Inhabited T] (cmp : Comparator T)
    (data : List T) (t : T) (_hlen : 1 ≤ data.length) :
    holeChildrenOk cmp (data ++ [t]) data.length := by
  intro c hc hck hk2
  rw [List.length_append, List.length_singleton] at hc
  omega

open PriorityQueue in
theorem Enqueue_heapInv {T : Type} [Inhabited T] {cmp : Comparator T}
    (hT : TotalCmp cmp) {p q : PriorityQueue T} {t : T}
    (hcmp : p.compare = cmp) (hlen : 1 ≤ p.data.length)
    (hinv : heapInv cmp p.data) (h : p.Enqueue t = .ok q) :
    heapInv cmp q.data := by
  simp only [Enqueue] at h
  split at h
  · cases h
  · injection h with h
    subst h
    simp only [goAppend]
    rw [hcmp]
    have hL : (p.data ++ [t]).length = p.data.length + 1 := by simp
    rw [hL, Nat.add_sub_cancel]
    exact siftUp_heapInv hT (p.data.length + 1) (p.data ++ [t]) p.data.length
      (by omega) hlen (by simp) (enqueue_except hinv)
      (enqueue_children cmp p.data t hlen)

open PriorityQueue in
theorem Enqueue_ok_spec {T : Type} [Inhabited T] {p q : PriorityQueue T}
    {t : T} (h : p.Enqueue t = .ok q) :
    q.compare = p.compare ∧ q.capacity = p.capacity ∧
    q.data.length = p.data.length + 1 ∧ p.isFull = false := by
  simp only [Enqueue] at h
  split at h
  · cases h
  · next hf =>
    injection h with h
    subst h
    refine ⟨rfl, rfl, ?_, by simpa using hf⟩
    simp only [goAppend]
    rw [siftUp_length]
    simp

open PriorityQueue in
theorem Enqueue_full {T : Type} [Inhabited T] (p : PriorityQueue T) (t : T)
    (h : p.isFull = true) : p.Enqueue t = .error .outOfCapacity := by
  simp [Enqueue, h]

open PriorityQueue in
theorem Dequeue_ok_spec {T : Type} [Inhabited T] {p q : PriorityQueue T}
    {v : T} (h : p.Dequeue = some (.ok (v, q))) :
    v = get1 p.data 1 ∧ 2 ≤ p.data.length ∧ q.compare = p.compare ∧
    q.capacity = p.capacity ∧ q.data.length = p.data.length - 1 := by
  simp only [Dequeue] at h
  split at h
  · next he =>
    simp only [Option.some.injEq] at h
    cases h
  · next he =>
    have hlen2 : 2 ≤ p.data.length := by
      simp only [isEmpty, decide_eq_true_eq] at he
      omega
    split at h
    · cases h
    · next p2 hs =>
      injection h with h
      injection h with h
      injection h with h1 h2
      obtain ⟨hd, hc, hcap⟩ := shrinkIfNecessary_some hs
      subst h2
      refine ⟨h1.symm, hlen2, hc, hcap, ?_⟩
      show (heapify p.compare p2.data.length p2.data (p2.data.length - 1) 1).length
        = p.data.length - 1
      rw [heapify_length, hd, List.length_take, List.length_set]
      omega

open PriorityQueue in
theorem dequeue_except {T : Type} [Inhabited T] {cmp : Comparator T}
    {data : List T} (hinv : heapInv cmp data) :
    heapInvExceptChildren cmp
      ((data.set 1 (get1 data (data.length - 1))).take
        ((data.set 1 (get1 data (data.length - 1))).length - 1)) 1 := by
  intro j hj h2 hji
  rw [List.length_take, List.length_set] at hj
  have hjlen : j < data.length - 1 := by omega
  have hj4 : 4 ≤ j := by omega
  rw [get1_take _ _ _ (by rw [List.length_set]; omega),
    get1_take _ _ _ (by rw [List.length_set]; omega),
    get1_set_ne _ _ _ _ (by omega), get1_set_ne _ _ _ _ (by omega)]
  exact hinv j (by omega) h2

open PriorityQueue in
theorem Dequeue_heapInv {T : Type} [Inhabited T] {cmp : Comparator T}
    (hT : TotalCmp cmp) {p q : PriorityQueue T} {v : T}
    (hcmp : p.compare = cmp) (hinv : heapInv cmp p.data)
    (h : p.Dequeue = some (.ok (v, q))) : heapInv cmp q.data := by
  have hlen2 : 2 ≤ p.data.length := (Dequeue_ok_spec h).2.1
  simp only [Dequeue] at h
  split at h
  · next he =>
    simp only [Option.some.injEq] at h
    cases h
  · next he =>
    split at h
    · cases h
    · next p2 hs =>
      injection h with h
      injection h with h
      injection h with h1 h2
      obtain ⟨hd, _hc, _hcap⟩ := shrinkIfNecessary_some hs
      subst h2
      show heapInv cmp (heapify p.compare p2.data.length p2.data
        (p2.data.length - 1) 1)
      have hL : p2.data.length = p.data.length - 1 := by
        rw [hd, List.length_take, List.length_set]
        omega
      rw [hcmp]
      apply heapify_heapInv hT p2.data.length p2.data (p2.data.length - 1) 1
        (by omega) (by omega) (by omega)
      · rw [hd]
        exact dequeue_except hinv
      · intro c hc hck hk2
        omega

open PriorityQueue in
theorem Dequeue_ne_none {T : Type} [Inhabited T] (p : PriorityQueue T) :
    p.Dequeue ≠ none := by
  simp only [Dequeue]
  split
  · simp
  · next he =>
    have hlen2 : 2 ≤ p.data.length := by
      simp only [isEmpty, decide_eq_true_eq] at he
      omega
    split
    · next hs =>
      exfalso
      refine shrinkIfNecessary_ne_none _ ?_ hs
      show ((p.data.set 1 (get1 p.data (p.data.length - 1))).take
        ((p.data.set 1 (get1 p.data (p.data.length - 1))).length - 1)).length ≠ 0
      rw [List.length_take, List.length_set]
      omega
    · simp

theorem NewPriorityQueue_fields (T : Type) [Inhabited T] (capacity : Int)
    (compare : Comparator T) :
    (NewPriorityQueue T capacity compare).data = [default] ∧
    (NewPriorityQueue T capacity compare).compare = compare := by
  unfold NewPriorityQueue
  split <;> exact ⟨rfl, rfl⟩

open PriorityQueue in
theorem reachable_facts {T : Type} [Inhabited T] {cmp : Comparator T}
    (hT : TotalCmp cmp) {p : PriorityQueue T} (h : Reachable cmp p) :
    p.compare = cmp ∧ 1 ≤ p.data.length ∧ heapInv cmp p.data := by
  induction h with
  | new capacity =>
    obtain ⟨hd, hc⟩ := NewPriorityQueue_fields T capacity cmp
    refine ⟨hc, by rw [hd]; simp, ?_⟩
    rw [hd]
    intro i hi h2
    simp at hi
    omega
  | enq hp he ih =>
    obtain ⟨hc, hl, hinv⟩ := ih
    obtain ⟨hc2, _, hlen2, _⟩ := Enqueue_ok_spec he
    exact ⟨by rw [hc2, hc], by omega, Enqueue_heapInv hT hc hl hinv he⟩
  | deq hp he ih =>
    obtain ⟨hc, hl, hinv⟩ := ih
    obtain ⟨_, hlen2, hc2, _, hlen3⟩ := Dequeue_ok_spec he
    exact ⟨by rw [hc2, hc], by omega, Dequeue_heapInv hT hc hinv he⟩

/-- In a heap the root precedes every element, by walking the parent
chain. -/
theorem heapInv_root_le {T : Type} [Inhabited T] {cmp : Comparator T}
    (hT : TotalCmp cmp) {data : List T} (hinv : heapInv cmp data) :
    ∀ i, 1 ≤ i → i < data.length → cmp (get1 data 1) (get1 data i) ≤ 0 := by
  intro i
  induction i using Nat.strong_induction_on with
  | _ i ih =>
    intro h1 hlen
    rcases eq_or_lt_of_le h1 with h1 | h2
    · rw [← h1]
      have := hT.refl (get1 data 1)
      omega
    · have hedge := hinv i hlen (by omega)
      have hih := ih (i / 2) (by omega) (by omega) (by omega)
      have e := hT.antisym (get1 data i) (get1 data (i / 2))
      exact hT.le_trans _ _ _ hih (by omega)

open PriorityQueue in
theorem Peek_empty_iff {T : Type} [Inhabited T] (p : PriorityQueue T) :
    p.Peek = .error .emptyQueue ↔ p.data.length < 2 := by
  by_cases hlen : p.data.length < 2
  · simp [Peek, isEmpty, hlen]
  · simp [Peek, isEmpty, hlen]

open PriorityQueue in
theorem Peek_ok_iff {T : Type} [Inhabited T] (p : PriorityQueue T) :
    p.Peek = .ok (get1 p.data 1) ↔ 2 ≤ p.data.length := by
  unfold Peek
  by_cases hlen : p.data.length < 2
  · rw [if_pos (by simp [isEmpty, hlen])]
    constructor
    · intro h
      cases h
    · omega
  · rw [if_neg (by simp [isEmpty, hlen])]
    constructor
    · intro _
      omega
    · intro _
      rfl

open PriorityQueue in
theorem Peek_min {T : Type} [Inhabited T] {cmp : Comparator T}
    (hT : TotalCmp cmp) {p : PriorityQueue T} {v : T}
    (hinv : heapInv cmp p.data) (h : p.Peek = .ok v) :
    v ∈ p.data.drop 1 ∧ ∀ x ∈ p.data.drop 1, cmp v x ≤ 0 := by
  unfold Peek at h
  split at h
  · cases h
  · next he =>
    have hlen2 : 2 ≤ p.data.length := by
      simp only [isEmpty, decide_eq_true_eq] at he
      omega
    injection h with h
    subst h
    have hb1 : 1 < p.data.length := by omega
    have hget : get1 p.data 1 = p.data[1] :=
      get1_eq_getElem _ _ hb1
    constructor
    · rw [hget]
      have hb0 : 0 < (p.data.drop 1).length := by
        rw [List.length_drop]
        omega
      have hd : p.data[1] = (p.data.drop 1)[0] :=
        List.getElem_drop' (i := 1) (j := 0) p.data (by omega)
      rw [hd]
      exact List.getElem_mem _
    · intro x hx
      obtain ⟨k, hk, hkx⟩ := List.mem_iff_getElem.mp hx
      rw [List.length_drop] at hk
      have hbk : 1 + k < p.data.length := by omega
      have hx2 : x = p.data[1 + k] := by
        rw [← hkx]
        exact (List.getElem_drop' (i := 1) (j := k) p.data (by omega)).symm
      have hroot := heapInv_root_le hT hinv (1 + k) (by omega) (by omega)
      rw [get1_eq_getElem p.data 1 hb1,
        get1_eq_getElem p.data (1 + k) hbk] at hroot
      rw [hget, hx2]
      exact hroot

open PriorityQueue in
theorem reachable_c8q2 : Reachable intCmp c8q2 :=
  Reachable.enq (Reachable.enq (Reachable.new 2) (rfl :
    c8q0.Enqueue 5 = .ok c8q1)) (rfl : c8q1.Enqueue 3 = .ok c8q2)

open PriorityQueue in
theorem Peek_ok_val {T : Type} [Inhabited T] {p : PriorityQueue T} {v : T}
    (h : p.Peek = .ok v) : v = get1 p.data 1 ∧ 2 ≤ p.data.length := by
  unfold Peek at h
  split at h
  · cases h
  · next he =>
    injection h with h
    refine ⟨h.symm, ?_⟩
    simp only [isEmpty, decide_eq_true_eq] at he
    omega

theorem tryDequeue_taken_ready {q : PriorityQueue Delayed} {now : Int}
    {v : Delayed} {q' : PriorityQueue Delayed}
    (h : tryDequeue q now = .taken v q') : v.Delay now ≤ 0 := by
  unfold tryDequeue at h
  split at h
  · next val hpeek =>
    split at h
    · next hdel =>
      split at h
      · cases h
      · next v2 q2 hdq =>
        injection h with h1 h2
        obtain ⟨hval, _⟩ := Peek_ok_val hpeek
        obtain ⟨hv2, _⟩ := Dequeue_ok_spec hdq
        rw [← h1, hv2, ← hval]
        exact hdel
      · cases h
    · cases h
  · cases h
  · cases h

theorem timerRecheck_taken_ready {q : PriorityQueue Delayed} {now : Int}
    {v : Delayed} {q' : PriorityQueue Delayed}
    (h : timerRecheck q now = .taken v q') : v.Delay now ≤ 0 := by
  unfold timerRecheck at h
  split at h
  · cases h
  · next val hpeek =>
    split at h
    · cases h
    · next hdel =>
      split at h
      · cases h
      · next v2 q2 hdq =>
        injection h with h1 h2
        obtain ⟨hval, _⟩ := Peek_ok_val hpeek
        obtain ⟨hv2, _⟩ := Dequeue_ok_spec hdq
        rw [← h1, hv2, ← hval]
        omega
      · cases h

/-! ## Claim theorems -/

/-- C1: the min-heap invariant (comparator(heap[i], heap[i/2]) ≥ 0 for
every 1-indexed position i > 1) holds after construction and is
preserved by every successful Enqueue (sift-up) and every successful
Dequeue (last element to root, then sift-down), for every element type
and total-order comparator. -/
theorem claim_C1_heap_invariant {T : Type} [Inhabited T] (cmp : Comparator T)
    (hT : TotalCmp cmp) :
    (∀ capacity : Int, heapInv cmp (NewPriorityQueue T capacity cmp).data) ∧
    (∀ (p q : PriorityQueue T) (t : T), p.compare = cmp →
      1 ≤ p.data.length → heapInv cmp p.data → p.Enqueue t = .ok q →
      heapInv cmp q.data) ∧
    (∀ (p q : PriorityQueue T) (v : T), p.compare = cmp →
      heapInv cmp p.data → p.Dequeue = some (.ok (v, q)) →
      heapInv cmp q.data) := by
  refine ⟨?_, ?_, ?_⟩
  · intro capacity
    obtain ⟨hd, _⟩ := NewPriorityQueue_fields T capacity cmp
    rw [hd]
    intro i hi h2
    simp at hi
    omega
  · intro p q t hc hl hinv he
    exact Enqueue_heapInv hT hc hl hinv he
  · intro p q v hc hinv he
    exact Dequeue_heapInv hT hc hinv he

theorem claim_C1_heap_invariant_witness :
    heapInv intCmp (NewPriorityQueue Int 5 intCmp).data ∧
    heapInv intCmp c8q2.data ∧ heapInv intCmp c8q3.data :=
  ⟨(claim_C1_heap_invariant intCmp intCmp_total).1 5,
   (claim_C1_heap_invariant intCmp intCmp_total).2.1 c8q1 c8q2 3 rfl
     (by decide) (by decide) rfl,
   (claim_C1_heap_invariant intCmp intCmp_total).2.2 c8q2 c8q3 3 rfl
     (by decide) rfl⟩

/-- C3: the shrink decision is a pure function of capacity c and length
l; c at most 64 never shrinks; c above 2048 with c/l at least 2 shrinks
to about five eighths; moderate capacities with c/l at least 4 shrink
to half; and the result never drops below l. -/
theorem claim_C3_shrink_conservative :
    (∀ c l : Nat, 1 ≤ l → l ≤ c → ∃ n changed,
        calCapacity c l = some (n, changed) ∧ l ≤ n) ∧
    (∀ c l : Nat, c ≤ 64 → calCapacity c l = some (c, false)) ∧
    (∀ c l : Nat, 2048 < c → 1 ≤ l → 2 ≤ c / l →
        calCapacity c l = some (float5div8 c, true) ∧
        l ≤ float5div8 c ∧
        8 * float5div8 c ≤ 5 * c + 16 * (c / 2 ^ 24) + 48 ∧
        5 * c ≤ 8 * float5div8 c + 16 * (c / 2 ^ 24) + 48) ∧
    (∀ c l : Nat, 64 < c → c ≤ 2048 → 1 ≤ l → 4 ≤ c / l →
        calCapacity c l = some (c / 2, true) ∧ l ≤ c / 2) ∧
    (∀ (T : Type) (s : GoSlice T), 1 ≤ s.data.length →
        s.data.length ≤ s.cap →
        ∃ s', Shrink s = some s' ∧ s'.data = s.data ∧
          s.data.length ≤ s'.cap) := by
  refine ⟨calCapacity_conservative, calCapacity_small, ?_, ?_, ?_⟩
  · intro c l hc hl hdiv
    have hl0 : l ≠ 0 := by omega
    have h2l : 2 * l ≤ c := by
      have := (Nat.le_div_iff_mul_le (by omega : 0 < l)).mp hdiv
      omega
    exact ⟨calCapacity_large c l hc hl0 hdiv, float5div8_ge c l h2l,
      (float5div8_bounds c).1, (float5div8_bounds c).2⟩
  · intro c l h64 h2048 hl hdiv
    have hl0 : l ≠ 0 := by omega
    have h4l : 4 * l ≤ c := by
      have := (Nat.le_div_iff_mul_le (by omega : 0 < l)).mp hdiv
      omega
    exact ⟨calCapacity_mid c l h64 h2048 hl0 hdiv, by omega⟩
  · intro T s h1 h2
    exact Shrink_spec s h1 h2

theorem claim_C3_shrink_conservative_witness :
    calCapacity 4096 8 = some (float5div8 4096, true) ∧
    (8 : Nat) ≤ float5div8 4096 ∧
    calCapacity 1024 16 = some (512, true) ∧
    calCapacity 64 1 = some (64, false) :=
  ⟨(claim_C3_shrink_conservative.2.2.1 4096 8 (by decide) (by decide)
      (by decide)).1,
   (claim_C3_shrink_conservative.2.2.1 4096 8 (by decide) (by decide)
      (by decide)).2.1,
   (claim_C3_shrink_conservative.2.2.2.1 1024 16 (by decide) (by decide)
      (by decide) (by decide)).1,
   claim_C3_shrink_conservative.2.1 64 1 (by decide)⟩

/-- C7: on every reachable priority-queue state, Peek returns the
comparator-minimum of the held elements (the slice past the sentinel)
and fails with the empty error exactly when no element is held; the
embedding of Peek is a pure observation, so the state is untouched. -/
theorem claim_C7_peek_min {T : Type} [Inhabited T] (cmp : Comparator T)
    (hT : TotalCmp cmp) (p : PriorityQueue T) (hp : Reachable cmp p) :
    (p.Peek = .error .emptyQueue ↔ p.Len = 0) ∧
    (∀ v, p.Peek = .ok v →
      v ∈ p.data.drop 1 ∧ ∀ x ∈ p.data.drop 1, cmp v x ≤ 0) := by
  obtain ⟨hc, hl, hinv⟩ := reachable_facts hT hp
  constructor
  · rw [Peek_empty_iff]
    unfold PriorityQueue.Len
    omega
  · intro v hv
    exact Peek_min hT hinv hv

theorem claim_C7_peek_min_witness :
    ((3 : Int) ∈ c8q2.data.drop 1 ∧ ∀ x ∈ c8q2.data.drop 1, intCmp 3 x ≤ 0) :=
  (claim_C7_peek_min intCmp intCmp_total c8q2 reachable_c8q2).2 3 rfl

/-- C8: the spec's concrete scenario on a bounded queue of capacity 2
with the ascending integer comparator: Enqueue 5 ok; Enqueue 3 ok and
Peek 3; Enqueue 9 fails full; Dequeue 3; Peek 5. -/
theorem claim_C8_scenario :
    c8q0.Enqueue 5 = .ok c8q1 ∧
    c8q1.Enqueue 3 = .ok c8q2 ∧
    c8q2.Peek = .ok 3 ∧
    c8q2.Enqueue 9 = .error .outOfCapacity ∧
    c8q2.Dequeue = some (.ok (3, c8q3)) ∧
    c8q3.Peek = .ok 5 :=
  ⟨rfl, rfl, rfl, rfl, rfl, rfl⟩

/-- C10: calCapacity divides by the length whenever the capacity is
above 64, so Shrink on a zero-length slice with capacity above 64
panics with a division by zero; but the sentinel slot keeps every
reachable queue's slice at length at least 1, and Dequeue truncates a
slice of length at least 2, so the panic branch is unreachable through
the queue interface: Dequeue never panics. -/
theorem claim_C10_div_zero_unreachable :
    (∀ (T : Type) (s : GoSlice T), s.data.length = 0 → 64 < s.cap →
      Shrink s = none) ∧
    (∀ (T : Type), ∀ _ : Inhabited T, ∀ (cmp : Comparator T),
      TotalCmp cmp → ∀ p : PriorityQueue T, Reachable cmp p →
      1 ≤ p.data.length) ∧
    (∀ (T : Type), ∀ _ : Inhabited T, ∀ p : PriorityQueue T,
      p.Dequeue ≠ none) := by
  refine ⟨?_, ?_, ?_⟩
  · intro T s h0 hc
    unfold Shrink
    rw [h0, calCapacity_div_zero s.cap hc]
  · intro T _ cmp hT p hp
    exact (reachable_facts hT hp).2.1
  · intro T _ p
    exact Dequeue_ne_none p

theorem claim_C10_div_zero_unreachable_witness :
    Shrink (⟨([] : List Int), 100⟩ : GoSlice Int) = none ∧
    1 ≤ c8q2.data.length ∧ c8q2.Dequeue ≠ none :=
  ⟨claim_C10_div_zero_unreachable.1 Int ⟨[], 100⟩ rfl (by decide),
   claim_C10_div_zero_unreachable.2.1 Int ⟨0⟩ intCmp intCmp_total c8q2
     reachable_c8q2,
   claim_C10_div_zero_unreachable.2.2 Int ⟨0⟩ c8q2⟩

/-- C2: every value returned by DelayQueue.Dequeue is ready at the
instant of removal: both return sites — the first locked attempt and
the locked re-check after the timer — only yield an element whose
remaining delay is nonpositive at that instant, and any value produced
by a full loop iteration comes from one of those two sites. -/
theorem claim_C2_dequeue_ready :
    (∀ (q : PriorityQueue Delayed) (now : Int) (v : Delayed)
        (q' : PriorityQueue Delayed),
      tryDequeue q now = .taken v q' → v.Delay now ≤ 0) ∧
    (∀ (q : PriorityQueue Delayed) (now : Int) (v : Delayed)
        (q' : PriorityQueue Delayed),
      timerRecheck q now = .taken v q' → v.Delay now ≤ 0) ∧
    (∀ (q : PriorityQueue Delayed) (now : Int) (cTop : Bool)
        (w : WaitChoice) (qT : PriorityQueue Delayed) (nT : Int)
        (v : Delayed) (q' : PriorityQueue Delayed),
      dequeueIter q now cTop w qT nT = .taken v q' →
      (tryDequeue q now = .taken v q' ∧ v.Delay now ≤ 0) ∨
      (timerRecheck qT nT = .taken v q' ∧ v.Delay nT ≤ 0)) := by
  refine ⟨fun q now v q' h => tryDequeue_taken_ready h,
    fun q now v q' h => timerRecheck_taken_ready h, ?_⟩
  intro q now cTop w qT nT v q' h
  unfold dequeueIter at h
  split at h
  · cases h
  · split at h
    · next v2 q2 heq =>
      injection h with h1 h2
      subst h1
      subst h2
      exact Or.inl ⟨heq, tryDequeue_taken_ready heq⟩
    · cases h
    · cases h
    · cases h
    · split at h <;> cases h
    · split at h
      · cases h
      · cases h
      · split at h
        · next v2 q2 heq =>
          injection h with h1 h2
          subst h1
          subst h2
          exact Or.inr ⟨heq, timerRecheck_taken_ready heq⟩
        · cases h
        · cases h
        · cases h

theorem claim_C2_dequeue_ready_witness :
    tryDequeue dqReady 10 = .taken dqElem dqTaken ∧ dqElem.Delay 10 ≤ 0 :=
  ⟨rfl, claim_C2_dequeue_ready.1 dqReady 10 dqElem dqTaken rfl⟩

/-- C5: broadcast, called with the coupled lock held on a well-formed
condition state, performs exactly: create a fresh channel, install it,
unlock, close the old channel — in that order; afterwards the current
channel differs from the old, the old is closed, the new one is open,
and the lock is no longer held. -/
theorem claim_C5_broadcast (s : CondState) (hWF : CondWF s)
    (_hLock : s.lockHeld = true) :
    (broadcast s).2 = [.makeChan s.nextCh, .storeSignal s.nextCh,
      .unlock, .closeChan s.signal] ∧
    (broadcast s).1.signal ≠ s.signal ∧
    s.signal ∈ (broadcast s).1.closed ∧
    (broadcast s).1.lockHeld = false ∧
    (broadcast s).1.signal ∉ (broadcast s).1.closed ∧
    CondWF (broadcast s).1 := by
  obtain ⟨h1, h2, h3⟩ := hWF
  have hnotin : s.nextCh ∉ s.signal :: s.closed := by
    intro hmem
    rcases List.mem_cons.mp hmem with heq | hmem2
    · omega
    · exact absurd (h3 _ hmem2) (by omega)
  refine ⟨rfl, by show s.nextCh ≠ s.signal; omega,
    List.mem_cons_self _ _, rfl, hnotin,
    by show s.nextCh < s.nextCh + 1; omega, hnotin, ?_⟩
  intro c hc
  rcases List.mem_cons.mp hc with heq | hmem2
  · show c < s.nextCh + 1
    omega
  · have := h3 _ hmem2
    show c < s.nextCh + 1
    omega

theorem claim_C5_broadcast_witness :
    (broadcast ⟨1, [], 0, true⟩).2 = [.makeChan 1, .storeSignal 1,
      .unlock, .closeChan 0] ∧ (broadcast ⟨1, [], 0, true⟩).1.signal ≠ 0 :=
  ⟨(claim_C5_broadcast ⟨1, [], 0, true⟩ ⟨by decide, by decide, by decide⟩
      rfl).1,
   (claim_C5_broadcast ⟨1, [], 0, true⟩ ⟨by decide, by decide, by decide⟩
      rfl).2.1⟩

/-- C6: cancellation is atomic: a Dequeue iteration cancelled at the
top check, or cancelled while waiting when no ready element existed
(head still pending or queue empty), returns the cancellation outcome
with the heap exactly as at entry; an Enqueue iteration cancelled at
the top, or cancelled while waiting on a full queue, returns without
having inserted the element. -/
theorem claim_C6_cancel_atomic :
    (∀ (q : PriorityQueue Delayed) (now : Int) (w : WaitChoice)
        (qT : PriorityQueue Delayed) (nT : Int),
      dequeueIter q now true w qT nT = .cancelled q) ∧
    (∀ (q : PriorityQueue Delayed) (now : Int)
        (qT : PriorityQueue Delayed) (nT : Int) (d : Int),
      tryDequeue q now = .waitTimer d →
      dequeueIter q now false .ctxDone qT nT = .cancelled q) ∧
    (∀ (q : PriorityQueue Delayed) (now : Int)
        (qT : PriorityQueue Delayed) (nT : Int),
      tryDequeue q now = .waitEmpty →
      dequeueIter q now false .ctxDone qT nT = .cancelled q) ∧
    (∀ (q : PriorityQueue Delayed) (t : Delayed) (c2 : Bool),
      enqueueIter q t true c2 = .cancelled q) ∧
    (∀ (q : PriorityQueue Delayed) (t : Delayed),
      q.isFull = true → enqueueIter q t false true = .waitCancelled q) := by
  refine ⟨?_, ?_, ?_, ?_, ?_⟩
  · intro q now w qT nT
    simp [dequeueIter]
  · intro q now qT nT d h
    simp [dequeueIter, h]
  · intro q now qT nT h
    simp [dequeueIter, h]
  · intro q t c2
    simp [enqueueIter]
  · intro q t h
    have he := Enqueue_full q t h
    simp [enqueueIter, he]

theorem claim_C6_cancel_atomic_witness :
    dequeueIter dqReady 10 true .ctxDone dqReady 10 = .cancelled dqReady ∧
    enqueueIter dqFull ⟨7⟩ false true = .waitCancelled dqFull :=
  ⟨claim_C6_cancel_atomic.1 dqReady 10 .ctxDone dqReady 10,
   claim_C6_cancel_atomic.2.2.2.2 dqFull ⟨7⟩ rfl⟩

theorem getNode_next_lt {T : Type} [Inhabited T] {nodes : List (Node T)}
    {i j : Nat} (h : (getNode nodes i).next = some j) : i < nodes.length := by
  by_contra hc
  have hd : getNode nodes i = ⟨default, none⟩ :=
    List.getD_eq_default _ _ (by omega)
  rw [hd] at h
  cases h

theorem getNode_set_ne {T : Type} [Inhabited T] (nodes : List (Node T))
    (k : Nat) (x : Node T) (a : Nat) (hne : k ≠ a) :
    getNode (nodes.set k x) a = getNode nodes a := by
  unfold getNode
  simp [List.getD_eq_getElem?_getD, List.getElem?_set_ne hne]

theorem getNode_set_self {T : Type} [Inhabited T] (nodes : List (Node T))
    (k : Nat) (x : Node T) (hk : k < nodes.length) :
    getNode (nodes.set k x) k = x := by
  unfold getNode
  simp [List.getD_eq_getElem?_getD, List.getElem?_set_self, hk]

theorem getNode_append_lt {T : Type} [Inhabited T] (nodes l2 : List (Node T))
    (a : Nat) (h : a < nodes.length) :
    getNode (nodes ++ l2) a = getNode nodes a := by
  unfold getNode
  simp [List.getD_eq_getElem?_getD, List.getElem?_append_left h]

theorem getNode_append_self {T : Type} [Inhabited T] (nodes : List (Node T))
    (x : Node T) : getNode (nodes ++ [x]) nodes.length = x := by
  unfold getNode
  simp [List.getD_eq_getElem?_getD]

/-- Along a chain, addresses strictly increase and stay in range. -/
theorem IsChain_elems {T : Type} [Inhabited T] {nodes : List (Node T)}
    (hmono : ∀ i j, (getNode nodes i).next = some j →
      i < j ∧ j < nodes.length) :
    ∀ {i ch}, IsChain nodes i ch → ∀ a ∈ ch, i < a ∧ a < nodes.length := by
  intro i ch h
  induction h with
  | nil _ => intro a ha; cases ha
  | cons hnext hch ih =>
    intro a ha
    rcases List.mem_cons.mp ha with rfl | ha2
    · exact hmono _ _ hnext
    · have h1 := ih a ha2
      have h2 := hmono _ _ hnext
      omega

/-- Linking a fresh node behind the chain end extends the chain by that
node. -/
theorem IsChain_enqueue {T : Type} [Inhabited T] {nodes : List (Node T)}
    {tailAddr : Nat} {t : T}
    (hquiet : (getNode nodes tailAddr).next = none)
    (htlen : tailAddr < nodes.length) :
    ∀ {i ch}, IsChain nodes i ch → ch.getLastD i = tailAddr →
    IsChain ((nodes ++ [(⟨t, none⟩ : Node T)]).set tailAddr
        ⟨(getNode nodes tailAddr).val, some nodes.length⟩) i
      (ch ++ [nodes.length]) := by
  intro i ch h
  induction h with
  | nil hn =>
    intro hlast
    simp only [List.getLastD_nil] at hlast
    subst hlast
    refine IsChain.cons ?_ (IsChain.nil ?_)
    · rw [getNode_set_self _ _ _ (by simp; omega)]
    · rw [getNode_set_ne _ _ _ _ (by omega), getNode_append_self]
  | cons hnext hch ih =>
    next i j l =>
    intro hlast
    rw [List.getLastD_cons] at hlast
    have hij : i ≠ tailAddr := by
      intro hcon
      rw [hcon, hquiet] at hnext
      cases hnext
    have hilen : i < nodes.length := getNode_next_lt hnext
    refine IsChain.cons ?_ (ih hlast)
    rw [getNode_set_ne _ _ _ _ (Ne.symm hij), getNode_append_lt _ _ _ hilen]
    exact hnext

theorem IsChain_unique {T : Type} [Inhabited T] {nodes : List (Node T)} :
    ∀ {i ch1 ch2}, IsChain nodes i ch1 → IsChain nodes i ch2 → ch1 = ch2 := by
  intro i ch1 ch2 h1
  induction h1 generalizing ch2 with
  | nil hn =>
    intro h2
    cases h2 with
    | nil _ => rfl
    | cons hnext _ => rw [hn] at hnext; cases hnext
  | cons hnext hch ih =>
    intro h2
    cases h2 with
    | nil hn => rw [hn] at hnext; cases hnext
    | cons hnext2 hch2 =>
      rw [hnext] at hnext2
      injection hnext2 with hj
      subst hj
      rw [ih hch2]

/-- The chain end has no successor. -/
theorem IsChain_last_next {T : Type} [Inhabited T] {nodes : List (Node T)} :
    ∀ {i ch}, IsChain nodes i ch →
    (getNode nodes (ch.getLastD i)).next = none := by
  intro i ch h
  induction h with
  | nil hn => exact hn
  | cons hnext hch ih => rw [List.getLastD_cons]; exact ih

open ConcurrentLinkedQueue in
theorem CLQ_Enqueue_spec {T : Type} [Inhabited T]
    {c : ConcurrentLinkedQueue T} {l : List T} (t : T)
    (hWF : CLQWF c) (hC : CLQContents c l) :
    ∃ c', c.Enqueue t = some (c', none) ∧ CLQWF c' ∧
      CLQContents c' (l ++ [t]) := by
  obtain ⟨hh, ht, hmono, chain, hch, hlast⟩ := hWF
  obtain ⟨chain2, hch2, hval⟩ := hC
  obtain rfl : chain = chain2 := IsChain_unique hch hch2
  have hquiet : (getNode c.nodes c.tail).next = none := by
    rw [← hlast]
    exact IsChain_last_next hch
  refine ⟨{ nodes := ((c.nodes ++ [(⟨t, none⟩ : Node T)]).set c.tail (⟨(getNode c.nodes c.tail).val, some c.nodes.length⟩ : Node T)), head := c.head, tail := c.nodes.length }, ?_, ?_, ?_⟩
  · simp only [Enqueue]
    rw [hquiet]
  · refine ⟨by simp; omega, by simp, ?_, chain ++ [c.nodes.length], ?_, ?_⟩
    · intro i j hnext
      by_cases hit : i = c.tail
      · subst hit
        rw [getNode_set_self _ _ _ (by simp; omega)] at hnext
        injection hnext with hj
        simp
        omega
      · rw [getNode_set_ne _ _ _ _ (Ne.symm hit)] at hnext
        have hlt : i < (c.nodes ++ [(⟨t, none⟩ : Node T)]).length :=
          getNode_next_lt hnext
        simp only [List.length_append, List.length_singleton] at hlt
        by_cases hi2 : i = c.nodes.length
        · subst hi2
          rw [getNode_append_self] at hnext
          cases hnext
        · rw [getNode_append_lt _ _ _ (by omega)] at hnext
          have := hmono _ _ hnext
          simp
          omega
    · exact IsChain_enqueue hquiet ht hch hlast
    · rw [List.getLastD_concat]
  · refine ⟨chain ++ [c.nodes.length], IsChain_enqueue hquiet ht hch hlast, ?_⟩
    rw [List.map_append, List.map_singleton]
    have hvals : ∀ a ∈ chain,
        (getNode ((c.nodes ++ [(⟨t, none⟩ : Node T)]).set c.tail
          ⟨(getNode c.nodes c.tail).val, some c.nodes.length⟩) a).val
        = (getNode c.nodes a).val := by
      intro a ha
      obtain ⟨_, halen⟩ := IsChain_elems hmono hch a ha
      by_cases hat : a = c.tail
      · subst hat
        rw [getNode_set_self _ _ _ (by simp; omega)]
      · rw [getNode_set_ne _ _ _ _ (Ne.symm hat),
          getNode_append_lt _ _ _ halen]
    have hlast2 : (getNode ((c.nodes ++ [(⟨t, none⟩ : Node T)]).set c.tail
        ⟨(getNode c.nodes c.tail).val, some c.nodes.length⟩)
        c.nodes.length).val = t := by
      rw [getNode_set_ne _ _ _ _ (by omega), getNode_append_self]
    rw [hlast2, hval, List.map_congr_left hvals]

open ConcurrentLinkedQueue in
theorem CLQ_Dequeue_empty {T : Type} [Inhabited T]
    {c : ConcurrentLinkedQueue T} (hWF : CLQWF c) (hC : CLQContents c []) :
    c.Dequeue = some (.error .emptyQueue) := by
  obtain ⟨hh, ht, hmono, chain, hch, hlast⟩ := hWF
  obtain ⟨chain2, hch2, hval⟩ := hC
  obtain rfl : chain = chain2 := IsChain_unique hch hch2
  have hchain : chain = [] := by
    cases chain with
    | nil => rfl
    | cons a l => cases hval
  subst hchain
  simp only [List.getLastD_nil] at hlast
  simp [Dequeue, hlast]

open ConcurrentLinkedQueue in
theorem CLQ_Dequeue_cons {T : Type} [Inhabited T]
    {c : ConcurrentLinkedQueue T} {x : T} {rest : List T}
    (hWF : CLQWF c) (hC : CLQContents c (x :: rest)) :
    ∃ c', c.Dequeue = some (.ok (x, c')) ∧ CLQWF c' ∧
      CLQContents c' rest := by
  obtain ⟨hh, ht, hmono, chain, hch, hlast⟩ := hWF
  obtain ⟨chain2, hch2, hval⟩ := hC
  obtain rfl : chain = chain2 := IsChain_unique hch hch2
  cases hch with
  | nil hn =>
    cases hval
  | @cons _ a l2 hnext hchl =>
    rw [List.getLastD_cons] at hlast
    have hmem : c.tail ∈ a :: l2 := by
      rw [← hlast]
      exact List.getLastD_mem_cons _ _
    have htail_gt : c.head < c.tail := by
      have := IsChain_elems hmono (IsChain.cons hnext hchl) c.tail hmem
      omega
    have hne : c.head ≠ c.tail := by omega
    injection hval with hx hrest
    have halen := IsChain_elems hmono (IsChain.cons hnext hchl) a
      (by simp)
    refine ⟨{ c with head := a }, ?_, ?_, ?_⟩
    · simp only [Dequeue, if_neg hne, hnext, hx]
    · exact ⟨by simp; omega, ht, hmono, l2, hchl, hlast⟩
    · exact ⟨l2, hchl, hrest⟩

theorem clq0_WF : CLQWF (NewConcurrentLinkedQueue Int) := by
  refine ⟨by decide, by decide, ?_, [], IsChain.nil rfl, rfl⟩
  intro i j h
  exfalso
  rcases i with _ | i2
  · simp [getNode, NewConcurrentLinkedQueue] at h
  · simp [getNode, NewConcurrentLinkedQueue] at h

theorem clq0_contents : CLQContents (NewConcurrentLinkedQueue Int) [] :=
  ⟨[], IsChain.nil rfl, rfl⟩

/-- C4: the lock-free queue's contract: from any well-formed quiescent
state, Enqueue succeeds with the Go nil error and appends at the
logical end; Dequeue returns the oldest value or fails with the
queue-empty error exactly on the empty queue; and by the shape of the
operations the only error value either operation ever produces is
the queue-empty one. -/
theorem claim_C4_lockfree_contract :
    (∀ (T : Type), ∀ _ : Inhabited T, ∀ (c : ConcurrentLinkedQueue T)
        (l : List T) (t : T), CLQWF c → CLQContents c l →
      ∃ c', c.Enqueue t = some (c', none) ∧ CLQWF c' ∧
        CLQContents c' (l ++ [t])) ∧
    (∀ (T : Type), ∀ _ : Inhabited T, ∀ (c : ConcurrentLinkedQueue T),
      CLQWF c → CLQContents c [] →
      c.Dequeue = some (.error .emptyQueue)) ∧
    (∀ (T : Type), ∀ _ : Inhabited T, ∀ (c : ConcurrentLinkedQueue T)
        (x : T) (rest : List T), CLQWF c → CLQContents c (x :: rest) →
      ∃ c', c.Dequeue = some (.ok (x, c')) ∧ CLQWF c' ∧
        CLQContents c' rest) ∧
    (∀ (T : Type), ∀ _ : Inhabited T, ∀ (c : ConcurrentLinkedQueue T)
        (e : QueueError) (r : Except QueueError
          (T × ConcurrentLinkedQueue T)),
      c.Dequeue = some r → r = .error e → e = .emptyQueue) ∧
    (∀ (T : Type), ∀ _ : Inhabited T, ∀ (c : ConcurrentLinkedQueue T)
        (t : T) (c' : ConcurrentLinkedQueue T) (err : Option QueueError),
      c.Enqueue t = some (c', err) → err = none) := by
  refine ⟨?_, ?_, ?_, ?_, ?_⟩
  · intro T _ c l t hWF hC
    exact CLQ_Enqueue_spec t hWF hC
  · intro T _ c hWF hC
    exact CLQ_Dequeue_empty hWF hC
  · intro T _ c x rest hWF hC
    exact CLQ_Dequeue_cons hWF hC
  · intro T _ c e r hd hr
    subst hr
    simp only [ConcurrentLinkedQueue.Dequeue] at hd
    split at hd
    · simp only [Option.some.injEq] at hd
      injection hd with he
      exact he.symm
    · split at hd
      · cases hd
      · simp only [Option.some.injEq] at hd
        cases hd
  · intro T _ c t c' err he
    simp only [ConcurrentLinkedQueue.Enqueue] at he
    split at he
    · cases he
    · simp only [Option.some.injEq] at he
      injection he with h1 h2
      exact h2.symm

theorem claim_C4_lockfree_contract_witness :
    (NewConcurrentLinkedQueue Int).Dequeue = some (.error .emptyQueue) ∧
    (NewConcurrentLinkedQueue Int).Enqueue 7 = some (clq1, none) :=
  ⟨claim_C4_lockfree_contract.2.1 Int ⟨0⟩ _ clq0_WF clq0_contents, rfl⟩

theorem getD_append_left (l l2 : List Nat) (n : Nat) (h : n < l.length) :
    (l ++ l2).getD n 0 = l.getD n 0 := by
  simp [List.getD_eq_getElem?_getD, List.getElem?_append_left h]

theorem getD_append_last (l : List Nat) (a : Nat) :
    (l ++ [a]).getD l.length 0 = a := by
  simp [List.getD_eq_getElem?_getD]

theorem nodup_getD_inj {l : List Nat} (hn : l.Nodup) {j1 j2 : Nat}
    (h1 : j1 < l.length) (h2 : j2 < l.length)
    (he : l.getD j1 0 = l.getD j2 0) : j1 = j2 := by
  rw [List.getD_eq_getElem l 0 h1, List.getD_eq_getElem l 0 h2] at he
  have h3 := (List.Nodup.get_inj_iff hn
    (i := ⟨j1, h1⟩) (j := ⟨j2, h2⟩)).mp he
  exact congrArg Fin.val h3

/-- Consecutive chain positions are linked by a successor pointer. -/
theorem IsChain_getD_succ {T : Type} [Inhabited T] {nodes : List (Node T)} :
    ∀ {i ch}, IsChain nodes i ch → ∀ j, j + 1 < (i :: ch).length →
    (getNode nodes ((i :: ch).getD j 0)).next =
      some ((i :: ch).getD (j + 1) 0) := by
  intro i ch h
  induction h with
  | nil hn =>
    intro j hj
    simp at hj
  | cons hnext hch ih =>
    intro j hj
    cases j with
    | zero => simpa using hnext
    | succ j2 =>
      have := ih j2 (by simpa using hj)
      simpa using this

/-- A chain member at or past position k heads the dropped chain. -/
theorem IsChain_drop {T : Type} [Inhabited T] {nodes : List (Node T)} :
    ∀ {i ch}, IsChain nodes i ch → ∀ k, k ≤ ch.length →
    IsChain nodes ((i :: ch).getD k 0) (ch.drop k) := by
  intro i ch h
  induction h with
  | nil hn =>
    intro k hk
    have hk0 : k = 0 := by simpa using hk
    subst hk0
    exact IsChain.nil hn
  | cons hnext hch ih =>
    intro k hk
    cases k with
    | zero => exact IsChain.cons hnext hch
    | succ k2 =>
      have := ih k2 (by simpa using hk)
      simpa using this

theorem getD_last_eq_getLastD (ch : List Nat) :
    ∀ i, (i :: ch).getD ch.length 0 = ch.getLastD i := by
  induction ch with
  | nil => intro i; rfl
  | cons a l ih =>
    intro i
    rw [List.getLastD_cons]
    exact ih a

/-- Linking a fresh unlinked node behind the chain end (a CAS of the
end node's nil successor) extends the chain. -/
theorem IsChain_link {T : Type} [Inhabited T] {nodes : List (Node T)}
    {t addr : Nat} (htlen : t < nodes.length)
    (hquiet : (getNode nodes t).next = none)
    (haddr : (getNode nodes addr).next = none) :
    ∀ {i ch}, IsChain nodes i ch → ch.getLastD i = t → addr ∉ i :: ch →
    IsChain (nodes.set t ⟨(getNode nodes t).val, some addr⟩) i
      (ch ++ [addr]) := by
  intro i ch h
  induction h with
  | nil hn =>
    intro hlast hmem
    rename_i i1
    simp only [List.getLastD_nil] at hlast
    rw [← hlast] at hquiet htlen ⊢
    have hne : i1 ≠ addr := by
      intro hcon
      exact hmem (List.mem_singleton.mpr hcon.symm)
    refine IsChain.cons ?_ (IsChain.nil ?_)
    · rw [getNode_set_self _ _ _ htlen]
    · rw [getNode_set_ne _ _ _ _ hne]
      exact haddr
  | cons hnext hch ih =>
    intro hlast hmem
    rw [List.getLastD_cons] at hlast
    rename_i i0 j0 l0
    have hne : t ≠ i0 := by
      intro hcon
      rw [← hcon, hquiet] at hnext
      cases hnext
    refine IsChain.cons ?_ (ih hlast ?_)
    · rw [getNode_set_ne _ _ _ _ hne]
      exact hnext
    · intro hcon
      exact hmem (List.mem_cons_of_mem _ hcon)

theorem TailGe_mono {T : Type} {s : MSState T} {m m' : Nat}
    (h : TailGe s m) (hm : m' ≤ m) : TailGe s m' := by
  obtain ⟨jt, h1, h2, h3⟩ := h
  exact ⟨jt, h1, h2, by omega⟩

/-- DeqInv only reads the chain, the tail and the dequeue count, and is
stable when the chain is unchanged, the tail unchanged and the count
grows. -/
theorem DeqInv_frame {T : Type} [Inhabited T] {s s' : MSState T}
    {pc : DeqPc} (hfc : fc s' = fc s) (htl : s'.tail = s.tail)
    (hlen : s.deqLog.length ≤ s'.deqLog.length)
    (h : DeqInv s pc) : DeqInv s' pc := by
  cases pc with
  | loopTop => trivial
  | readTail h0 =>
    obtain ⟨j, h1, h2, h3⟩ := h
    exact ⟨j, by rw [hfc]; exact h1, by rw [hfc]; exact h2, by omega⟩
  | check h0 t0 =>
    obtain ⟨j, jt, h1, h2, h3, h4, h5, h6, jt2, g1, g2, g3⟩ := h
    exact ⟨j, jt, by rw [hfc]; exact h1, by rw [hfc]; exact h2, by omega,
      by rw [hfc]; exact h4, by rw [hfc]; exact h5, h6,
      jt2, by rw [hfc]; exact g1, by rw [hfc, htl]; exact g2, g3⟩
  | casHead h0 n0 =>
    obtain ⟨j, h1, h2, h3, jt2, g1, g2, g3⟩ := h
    exact ⟨j, by rw [hfc]; exact h1, by rw [hfc]; exact h2,
      by rw [hfc]; exact h3,
      jt2, by rw [hfc]; exact g1, by rw [hfc, htl]; exact g2, g3⟩

/-- DeqInv is stable when the chain is extended at its end (a link) and
tail, dequeue count are unchanged. -/
theorem DeqInv_extend {T : Type} [Inhabited T] {s s' : MSState T}
    {pc : DeqPc} {a : Nat} (hfc : fc s' = fc s ++ [a])
    (htl : s'.tail = s.tail) (hlen : s'.deqLog = s.deqLog)
    (h : DeqInv s pc) : DeqInv s' pc := by
  have hget : ∀ j, j < (fc s).length → (fc s').getD j 0 = (fc s).getD j 0 := by
    intro j hj
    rw [hfc]
    exact getD_append_left _ _ _ hj
  have hlen2 : (fc s').length = (fc s).length + 1 := by rw [hfc]; simp
  cases pc with
  | loopTop => trivial
  | readTail h0 =>
    obtain ⟨j, h1, h2, h3⟩ := h
    exact ⟨j, by omega, by rw [hget j h1]; exact h2, by rw [hlen]; exact h3⟩
  | check h0 t0 =>
    obtain ⟨j, jt, h1, h2, h3, h4, h5, h6, jt2, g1, g2, g3⟩ := h
    exact ⟨j, jt, by omega, by rw [hget j h1]; exact h2,
      by rw [hlen]; exact h3, by omega, by rw [hget jt h4]; exact h5, h6,
      jt2, by omega, by rw [hget jt2 g1, htl]; exact g2, g3⟩
  | casHead h0 n0 =>
    obtain ⟨j, h1, h2, h3, jt2, g1, g2, g3⟩ := h
    exact ⟨j, by omega, by rw [hget j (by omega)]; exact h2,
      by rw [hget (j + 1) h1]; exact h3,
      jt2, by omega, by rw [hget jt2 g1, htl]; exact g2, g3⟩

/-- EnqInv only reads the chain and the node store. -/
theorem EnqInv_same {T : Type} [Inhabited T] {s s' : MSState T}
    {addr : Nat} {pc : EnqPc} (hfc : fc s' = fc s)
    (hnodes : s'.nodes = s.nodes) (h : EnqInv s addr pc) :
    EnqInv s' addr pc := by
  cases pc with
  | loopTop =>
    obtain ⟨h1, h2, h3⟩ := h
    exact ⟨by rw [hnodes]; exact h1, by rw [hfc]; exact h2,
      by rw [hnodes]; exact h3⟩
  | readNext t =>
    obtain ⟨⟨h1, h2, h3⟩, h4⟩ := h
    exact ⟨⟨by rw [hnodes]; exact h1, by rw [hfc]; exact h2,
      by rw [hnodes]; exact h3⟩, by rw [hfc]; exact h4⟩
  | casNext t tn =>
    obtain ⟨⟨h1, h2, h3⟩, h4⟩ := h
    exact ⟨⟨by rw [hnodes]; exact h1, by rw [hfc]; exact h2,
      by rw [hnodes]; exact h3⟩, by rw [hfc]; exact h4⟩
  | casTail t =>
    obtain ⟨j, h1, h2, h3⟩ := h
    exact ⟨j, by rw [hfc]; exact h1, by rw [hfc]; exact h2,
      by rw [hfc]; exact h3⟩

theorem getD_mem_of_lt (l : List Nat) (j : Nat) (h : j < l.length) :
    l.getD j 0 ∈ l := by
  rw [List.getD_eq_getElem l 0 h]
  exact l.getElem_mem h

theorem hdist_update_enq {T : Type} [Inhabited T] {s : MSState T}
    {tid addr : Nat} {pcold pcnew : EnqPc}
    (hop : s.ops tid = .enq addr pcold)
    (hdist : ∀ t1 t2 a1 p1 a2 p2, t1 ≠ t2 → s.ops t1 = .enq a1 p1 →
      s.ops t2 = .enq a2 p2 → a1 ≠ a2) :
    ∀ t1 t2 a1 p1 a2 p2, t1 ≠ t2 →
      Function.update s.ops tid (.enq addr pcnew) t1 = .enq a1 p1 →
      Function.update s.ops tid (.enq addr pcnew) t2 = .enq a2 p2 →
      a1 ≠ a2 := by
  intro t1 t2 a1 p1 a2 p2 hne h1 h2
  by_cases e1 : t1 = tid <;> by_cases e2 : t2 = tid
  · exact absurd (e1.trans e2.symm) hne
  · subst e1
    rw [Function.update_same] at h1
    rw [Function.update_noteq e2] at h2
    injection h1 with ha _
    subst ha
    exact hdist t1 t2 addr pcold a2 p2 hne hop h2
  · subst e2
    rw [Function.update_same] at h2
    rw [Function.update_noteq e1] at h1
    injection h2 with ha _
    subst ha
    exact hdist t1 t2 a1 p1 addr pcold hne h1 hop
  · rw [Function.update_noteq e1] at h1
    rw [Function.update_noteq e2] at h2
    exact hdist t1 t2 a1 p1 a2 p2 hne h1 h2

theorem hdist_update_other {T : Type} [Inhabited T] {s : MSState T}
    {tid : Nat} {st : ThreadSt} (hst : ∀ a p, st ≠ .enq a p)
    (hdist : ∀ t1 t2 a1 p1 a2 p2, t1 ≠ t2 → s.ops t1 = .enq a1 p1 →
      s.ops t2 = .enq a2 p2 → a1 ≠ a2) :
    ∀ t1 t2 a1 p1 a2 p2, t1 ≠ t2 →
      Function.update s.ops tid st t1 = .enq a1 p1 →
      Function.update s.ops tid st t2 = .enq a2 p2 → a1 ≠ a2 := by
  intro t1 t2 a1 p1 a2 p2 hne h1 h2
  by_cases e1 : t1 = tid
  · subst e1
    rw [Function.update_same] at h1
    exact absurd h1 (hst a1 p1)
  · by_cases e2 : t2 = tid
    · subst e2
      rw [Function.update_same] at h2
      exact absurd h2 (hst a2 p2)
    · rw [Function.update_noteq e1] at h1
      rw [Function.update_noteq e2] at h2
      exact hdist t1 t2 a1 p1 a2 p2 hne h1 h2

theorem mem_getD (l : List Nat) (a : Nat) (h : a ∈ l) :
    ∃ j, j < l.length ∧ l.getD j 0 = a := by
  obtain ⟨j, hj, he⟩ := List.mem_iff_getElem.mp h
  exact ⟨j, hj, by rw [List.getD_eq_getElem l 0 hj]; exact he⟩

theorem EnqInv_addr_lt {T : Type} [Inhabited T] {s : MSState T}
    {addr : Nat} {pc : EnqPc}
    (helems : ∀ a ∈ fc s, a < s.nodes.length)
    (h : EnqInv s addr pc) : addr < s.nodes.length := by
  cases pc with
  | loopTop => exact h.1
  | readNext t => exact h.1.1
  | casNext t tn => exact h.1.1
  | casTail t =>
    obtain ⟨j, h1, h2, h3⟩ := h
    refine helems addr ?_
    rw [← h3]
    exact getD_mem_of_lt _ _ h1

/-- Appending a fresh node with no successor preserves every chain. -/
theorem IsChain_append1 {T : Type} [Inhabited T] {nodes : List (Node T)}
    {x : Node T} (hx : x.next = none) :
    ∀ {i ch}, IsChain nodes i ch → IsChain (nodes ++ [x]) i ch := by
  intro i ch h
  induction h with
  | nil hn =>
    rename_i i1
    refine IsChain.nil ?_
    by_cases hi : i1 < nodes.length
    · rw [getNode_append_lt _ _ _ hi]
      exact hn
    · by_cases hi2 : i1 = nodes.length
      · rw [hi2, getNode_append_self]
        exact hx
      · unfold getNode
        rw [List.getD_eq_default _ _ (by simp; omega)]
  | cons hnext hch ih =>
    refine IsChain.cons ?_ ih
    rw [getNode_append_lt _ _ _ (getNode_next_lt hnext)]
    exact hnext

theorem EnqInv_append {T : Type} [Inhabited T] {s s' : MSState T}
    {addr : Nat} {pc : EnqPc} {x : Node T}
    (hfc : fc s' = fc s) (hnodes : s'.nodes = s.nodes ++ [x])
    (h : EnqInv s addr pc) : EnqInv s' addr pc := by
  have hU : ∀ {a : Nat}, Unlinked s a → Unlinked s' a := by
    intro a ⟨h1, h2, h3⟩
    refine ⟨by rw [hnodes]; simp; omega, by rw [hfc]; exact h2, ?_⟩
    rw [hnodes, getNode_append_lt _ _ _ h1]
    exact h3
  cases pc with
  | loopTop => exact hU h
  | readNext t => exact ⟨hU h.1, by rw [hfc]; exact h.2⟩
  | casNext t tn => exact ⟨hU h.1, by rw [hfc]; exact h.2⟩
  | casTail t =>
    obtain ⟨j, h1, h2, h3⟩ := h
    exact ⟨j, by rw [hfc]; exact h1, by rw [hfc]; exact h2,
      by rw [hfc]; exact h3⟩

theorem EnqInv_link_other {T : Type} [Inhabited T] {s s' : MSState T}
    {addr a2 t : Nat} {pc : EnqPc} (hfc : fc s' = fc s ++ [addr])
    (hnodes : s'.nodes = s.nodes.set t
      ⟨(getNode s.nodes t).val, some addr⟩)
    (htmem : t ∈ fc s) (hne : a2 ≠ addr)
    (h : EnqInv s a2 pc) : EnqInv s' a2 pc := by
  have hU : ∀ {a : Nat}, a ≠ addr → Unlinked s a → Unlinked s' a := by
    intro a hna ⟨h1, h2, h3⟩
    have hat : t ≠ a := by
      intro hcon
      exact h2 (hcon ▸ htmem)
    refine ⟨by rw [hnodes]; simpa using h1, ?_, ?_⟩
    · rw [hfc]
      intro hmem
      rcases List.mem_append.mp hmem with hm | hm
      · exact h2 hm
      · simp at hm
        exact hna hm
    · rw [hnodes, getNode_set_ne _ _ _ _ hat]
      exact h3
  cases pc with
  | loopTop => exact hU hne h
  | readNext t2 =>
    exact ⟨hU hne h.1, by rw [hfc]; exact List.mem_append_left _ h.2⟩
  | casNext t2 tn =>
    exact ⟨hU hne h.1, by rw [hfc]; exact List.mem_append_left _ h.2⟩
  | casTail t2 =>
    obtain ⟨j, h1, h2, h3⟩ := h
    refine ⟨j, by rw [hfc]; simp; omega, ?_, ?_⟩
    · rw [hfc, getD_append_left _ _ _ (by omega)]
      exact h2
    · rw [hfc, getD_append_left _ _ _ h1]
      exact h3

theorem TailGe_advance {T : Type} {s s' : MSState T}
    (hfc : fc s' = fc s) (hnodup : (fc s).Nodup)
    {t addr j0 : Nat} (hj0 : j0 + 1 < (fc s).length)
    (hg0 : (fc s).getD j0 0 = t) (hg0' : (fc s).getD (j0 + 1) 0 = addr)
    (htl : s'.tail = if s.tail = t then addr else s.tail)
    {m : Nat} (h : TailGe s m) : TailGe s' m := by
  obtain ⟨jt, h1, h2, h3⟩ := h
  by_cases hc : s.tail = t
  · have hje : jt = j0 := by
      refine nodup_getD_inj hnodup h1 (by omega) ?_
      rw [h2, hg0, hc]
    refine ⟨j0 + 1, by rw [hfc]; exact hj0, ?_, by omega⟩
    rw [hfc, hg0', htl, if_pos hc]
  · refine ⟨jt, by rw [hfc]; exact h1, ?_, h3⟩
    rw [hfc, h2, htl, if_neg hc]

theorem DeqInv_tailAdvance {T : Type} [Inhabited T] {s s' : MSState T}
    {pc : DeqPc} (hfc : fc s' = fc s) (hdl : s'.deqLog = s.deqLog)
    (hnodup : (fc s).Nodup)
    {t addr j0 : Nat} (hj0 : j0 + 1 < (fc s).length)
    (hg0 : (fc s).getD j0 0 = t) (hg0' : (fc s).getD (j0 + 1) 0 = addr)
    (htl : s'.tail = if s.tail = t then addr else s.tail)
    (h : DeqInv s pc) : DeqInv s' pc := by
  cases pc with
  | loopTop => trivial
  | readTail h0 =>
    obtain ⟨j, h1, h2, h3⟩ := h
    exact ⟨j, by rw [hfc]; exact h1, by rw [hfc]; exact h2,
      by rw [hdl]; exact h3⟩
  | check h0 t0 =>
    obtain ⟨j, jt, h1, h2, h3, h4, h5, h6, hTG⟩ := h
    exact ⟨j, jt, by rw [hfc]; exact h1, by rw [hfc]; exact h2,
      by rw [hdl]; exact h3, by rw [hfc]; exact h4,
      by rw [hfc]; exact h5, h6,
      TailGe_advance hfc hnodup hj0 hg0 hg0' htl hTG⟩
  | casHead h0 n0 =>
    obtain ⟨j, h1, h2, h3, hTG⟩ := h
    exact ⟨j, by rw [hfc]; exact h1, by rw [hfc]; exact h2,
      by rw [hfc]; exact h3,
      TailGe_advance hfc hnodup hj0 hg0 hg0' htl hTG⟩

theorem MSInv_init (T : Type) [Inhabited T] : MSInv (MSInit T) := by
  refine ⟨?_, ?_, ?_, ?_, ?_, ?_, ?_, ?_, ?_, ?_⟩
  · simp [MSInit]
  · exact IsChain.nil rfl
  · intro a ha
    simp [fc, MSInit] at ha
    simp [ha, MSInit]
  · simp [fc, MSInit]
  · simp [MSInit]
  · rfl
  · rfl
  · exact ⟨0, by simp [fc, MSInit], rfl, by simp [MSInit]⟩
  · intro tid
    trivial
  · intro t1 t2 a1 p1 a2 p2 hne h1 h2
    cases h1

theorem MSInv_step {T : Type} [Inhabited T] {s s' : MSState T}
    (inv : MSInv s) (hstep : MSStep s s') : MSInv s' := by
  obtain ⟨hlen0, hchain, helems, hnodup, hdlen, hdeq, hhead, htail, hops,
    hdist⟩ := inv
  cases hstep with
  | startEnq tid v hop =>
    refine ⟨?_, ?_, ?_, hnodup, hdlen, hdeq, hhead, htail, ?_, ?_⟩
    · show 0 < (s.nodes ++ [(⟨v, none⟩ : Node T)]).length
      simp
    · exact IsChain_append1 rfl hchain
    · intro a ha
      have ha2 : a ∈ fc s := ha
      have hlt := helems a ha2
      show a < (s.nodes ++ [(⟨v, none⟩ : Node T)]).length
      simp
      omega
    · intro tid2
      by_cases e : tid2 = tid
      · subst e
        show OpInv _ (Function.update s.ops tid2 _ tid2)
        rw [Function.update_same]
        refine ⟨?_, ?_, ?_⟩
        · show s.nodes.length < (s.nodes ++ [(⟨v, none⟩ : Node T)]).length
          simp
        · intro hmem
          have hmem2 : s.nodes.length ∈ fc s := hmem
          exact absurd (helems _ hmem2) (lt_irrefl _)
        · show (getNode (s.nodes ++ [(⟨v, none⟩ : Node T)])
            s.nodes.length).next = none
          rw [getNode_append_self]
      · show OpInv _ (Function.update s.ops tid _ tid2)
        rw [Function.update_noteq e]
        have hold2 := hops tid2
        cases hcase : s.ops tid2 with
        | idle => trivial
        | enq a2 p2 =>
          rw [hcase] at hold2
          exact EnqInv_append (s := s) (by rfl) (by rfl) hold2
        | deq pc2 =>
          rw [hcase] at hold2
          exact DeqInv_frame (s := s) (by rfl) (by rfl) (by exact le_refl _)
            hold2
    · intro t1 t2 a1 p1 a2 p2 hne h1 h2
      have h1h : Function.update s.ops tid
          (ThreadSt.enq s.nodes.length EnqPc.loopTop) t1 = .enq a1 p1 := h1
      have h2h : Function.update s.ops tid
          (ThreadSt.enq s.nodes.length EnqPc.loopTop) t2 = .enq a2 p2 := h2
      by_cases e1 : t1 = tid <;> by_cases e2 : t2 = tid
      · exact absurd (e1.trans e2.symm) hne
      · subst e1
        rw [Function.update_same] at h1h
        rw [Function.update_noteq e2] at h2h
        injection h1h with ha hb
        have hold2 := hops t2
        rw [h2h] at hold2
        have hlt := EnqInv_addr_lt helems hold2
        omega
      · subst e2
        rw [Function.update_same] at h2h
        rw [Function.update_noteq e1] at h1h
        injection h2h with ha hb
        have hold2 := hops t1
        rw [h1h] at hold2
        have hlt := EnqInv_addr_lt helems hold2
        omega
      · rw [Function.update_noteq e1] at h1h
        rw [Function.update_noteq e2] at h2h
        exact hdist t1 t2 a1 p1 a2 p2 hne h1h h2h
  | readTail tid addr hop =>
    refine ⟨hlen0, hchain, helems, hnodup, hdlen, hdeq, hhead, htail,
      ?_, hdist_update_enq hop hdist⟩
    intro tid2
    by_cases e : tid2 = tid
    · subst e
      show OpInv _ (Function.update s.ops tid2 _ tid2)
      rw [Function.update_same]
      have hold := hops tid2
      rw [hop] at hold
      obtain ⟨jt, hjt, hgt, _⟩ := htail
      exact ⟨hold, by rw [← hgt]; exact getD_mem_of_lt _ _ hjt⟩
    · show OpInv _ (Function.update s.ops tid _ tid2)
      rw [Function.update_noteq e]
      exact hops tid2
  | readTailNext tid addr t hop =>
    refine ⟨hlen0, hchain, helems, hnodup, hdlen, hdeq, hhead, htail,
      ?_, hdist_update_enq hop hdist⟩
    intro tid2
    by_cases e : tid2 = tid
    · subst e
      show OpInv _ (Function.update s.ops tid2 _ tid2)
      rw [Function.update_same]
      have hold := hops tid2
      rw [hop] at hold
      exact hold
    · show OpInv _ (Function.update s.ops tid _ tid2)
      rw [Function.update_noteq e]
      exact hops tid2
  | casNextRetry tid addr t tn hop =>
    refine ⟨hlen0, hchain, helems, hnodup, hdlen, hdeq, hhead, htail,
      ?_, hdist_update_enq hop hdist⟩
    intro tid2
    by_cases e : tid2 = tid
    · subst e
      show OpInv _ (Function.update s.ops tid2 _ tid2)
      rw [Function.update_same]
      have hold := hops tid2
      rw [hop] at hold
      exact hold.1
    · show OpInv _ (Function.update s.ops tid _ tid2)
      rw [Function.update_noteq e]
      exact hops tid2
  | casNextFail tid addr t hop hne =>
    refine ⟨hlen0, hchain, helems, hnodup, hdlen, hdeq, hhead, htail,
      ?_, hdist_update_enq hop hdist⟩
    intro tid2
    by_cases e : tid2 = tid
    · subst e
      show OpInv _ (Function.update s.ops tid2 _ tid2)
      rw [Function.update_same]
      have hold := hops tid2
      rw [hop] at hold
      exact hold.1
    · show OpInv _ (Function.update s.ops tid _ tid2)
      rw [Function.update_noteq e]
      exact hops tid2
  | casNextSucceed tid addr t hop hnone =>
    have hold := hops tid
    rw [hop] at hold
    obtain ⟨⟨haddrlt, haddrmem, haddrnext⟩, htfc⟩ := hold
    obtain ⟨jt, hjtlen, hjtget⟩ := mem_getD _ _ htfc
    have hflen : (fc s).length = (List.map Prod.snd s.linkLog).length + 1 := by
      simp [fc]
    have hmlen : (List.map Prod.snd s.linkLog).length = s.linkLog.length := by
      simp
    have hfc0 : (0 :: List.map Prod.snd s.linkLog) = fc s := rfl
    have hjtlast : jt = (List.map Prod.snd s.linkLog).length := by
      by_contra hcon
      have hjl : jt + 1 < (fc s).length := by omega
      have hsucc := IsChain_getD_succ hchain jt (by simpa [fc] using hjl)
      rw [hfc0, hjtget, hnone] at hsucc
      exact Option.noConfusion hsucc
    have hlastt : (List.map Prod.snd s.linkLog).getLastD 0 = t := by
      have hgl := getD_last_eq_getLastD (List.map Prod.snd s.linkLog) 0
      rw [hfc0, ← hjtlast, hjtget] at hgl
      exact hgl.symm
    have hch2 := IsChain_link (helems t htfc) hnone haddrnext hchain hlastt
      haddrmem
    have hfceq : (0 :: List.map Prod.snd (s.linkLog ++ [(tid, addr)]))
        = fc s ++ [addr] := by
      simp [fc]
    refine ⟨?_, ?_, ?_, ?_, ?_, ?_, ?_, ?_, ?_, hdist_update_enq hop hdist⟩
    · show 0 < (s.nodes.set t ⟨(getNode s.nodes t).val, some addr⟩).length
      rw [List.length_set]
      exact hlen0
    · show IsChain (s.nodes.set t ⟨(getNode s.nodes t).val, some addr⟩) 0
        (List.map Prod.snd (s.linkLog ++ [(tid, addr)]))
      rw [List.map_append]
      exact hch2
    · intro a ha
      show a < (s.nodes.set t ⟨(getNode s.nodes t).val, some addr⟩).length
      rw [List.length_set]
      have ha2 : a = 0 ∨ a ∈ List.map Prod.snd s.linkLog ∨ a = addr := by
        simpa [fc] using ha
      rcases ha2 with h0 | hm | ha3
      · exact h0 ▸ hlen0
      · exact helems a (by rw [← hfc0]; exact List.mem_cons_of_mem 0 hm)
      · exact ha3 ▸ haddrlt
    · show (0 :: List.map Prod.snd (s.linkLog ++ [(tid, addr)])).Nodup
      rw [hfceq, List.nodup_append]
      refine ⟨hnodup, List.nodup_singleton _, ?_⟩
      intro x hx hx2
      simp at hx2
      subst hx2
      exact haddrmem hx
    · show s.deqLog.length ≤ (s.linkLog ++ [(tid, addr)]).length
      have hll : (s.linkLog ++ [(tid, addr)]).length = s.linkLog.length + 1 := by
        simp
      omega
    · show s.deqLog =
        (List.map Prod.snd (s.linkLog ++ [(tid, addr)])).take s.deqLog.length
      rw [List.map_append]
      rw [List.take_append_of_le_length
        (show s.deqLog.length ≤ (List.map Prod.snd s.linkLog).length by
          simp
          omega)]
      exact hdeq
    · show s.head =
        (0 :: List.map Prod.snd (s.linkLog ++ [(tid, addr)])).getD
          s.deqLog.length 0
      rw [hfceq, getD_append_left _ _ _ (by omega)]
      exact hhead
    · obtain ⟨j2, hj2, hg2, hle2⟩ := htail
      refine ⟨j2, ?_, ?_, hle2⟩
      · show j2 < (0 :: List.map Prod.snd (s.linkLog ++ [(tid, addr)])).length
        rw [hfceq]
        simp
        omega
      · show (0 :: List.map Prod.snd (s.linkLog ++ [(tid, addr)])).getD j2 0
          = s.tail
        rw [hfceq, getD_append_left _ _ _ hj2]
        exact hg2
    · intro tid2
      by_cases e : tid2 = tid
      · subst e
        show OpInv _ (Function.update s.ops tid2 _ tid2)
        rw [Function.update_same]
        refine ⟨jt, ?_, ?_, ?_⟩
        · show jt + 1 <
            (0 :: List.map Prod.snd (s.linkLog ++ [(tid2, addr)])).length
          rw [hfceq]
          simp
          omega
        · show (0 :: List.map Prod.snd (s.linkLog ++ [(tid2, addr)])).getD jt 0
            = t
          rw [hfceq, getD_append_left _ _ _ hjtlen]
          exact hjtget
        · show (0 :: List.map Prod.snd (s.linkLog ++ [(tid2, addr)])).getD
            (jt + 1) 0 = addr
          have hj1 : jt + 1 = (fc s).length := by omega
          rw [hfceq, hj1, getD_append_last]
      · show OpInv _ (Function.update s.ops tid _ tid2)
        rw [Function.update_noteq e]
        have hold2 := hops tid2
        cases hcase : s.ops tid2 with
        | idle => trivial
        | enq a2 p2 =>
          rw [hcase] at hold2
          have hne2 : a2 ≠ addr :=
            hdist tid2 tid a2 p2 addr (.casNext t none) e hcase hop
          exact EnqInv_link_other (s := s) (by exact hfceq) (by rfl) htfc
            hne2 hold2
        | deq pc2 =>
          rw [hcase] at hold2
          exact DeqInv_extend (s := s) (by exact hfceq) (by rfl) (by rfl)
            hold2
  | casTailStep tid addr t hop =>
    have hold := hops tid
    rw [hop] at hold
    obtain ⟨j0, hj0, hg0, hg0h⟩ := hold
    refine ⟨hlen0, hchain, helems, hnodup, hdlen, hdeq, hhead, ?_, ?_,
      hdist_update_other (by intro a p hh; cases hh) hdist⟩
    · exact TailGe_advance (s := s) (by rfl) hnodup hj0 hg0 hg0h (by rfl)
        htail
    · intro tid2
      by_cases e : tid2 = tid
      · subst e
        show OpInv _ (Function.update s.ops tid2 _ tid2)
        rw [Function.update_same]
        trivial
      · show OpInv _ (Function.update s.ops tid _ tid2)
        rw [Function.update_noteq e]
        have hold2 := hops tid2
        cases hcase : s.ops tid2 with
        | idle => trivial
        | enq a2 p2 =>
          rw [hcase] at hold2
          exact EnqInv_same (s := s) (by rfl) (by rfl) hold2
        | deq pc2 =>
          rw [hcase] at hold2
          exact DeqInv_tailAdvance (s := s) (by rfl) (by rfl) hnodup hj0 hg0
            hg0h (by rfl) hold2
  | startDeq tid hop =>
    refine ⟨hlen0, hchain, helems, hnodup, hdlen, hdeq, hhead, htail,
      ?_, hdist_update_other (by intro a p h; cases h) hdist⟩
    intro tid2
    by_cases e : tid2 = tid
    · subst e
      show OpInv _ (Function.update s.ops tid2 _ tid2)
      rw [Function.update_same]
      trivial
    · show OpInv _ (Function.update s.ops tid _ tid2)
      rw [Function.update_noteq e]
      exact hops tid2
  | readHead tid hop =>
    refine ⟨hlen0, hchain, helems, hnodup, hdlen, hdeq, hhead, htail,
      ?_, hdist_update_other (by intro a p h; cases h) hdist⟩
    intro tid2
    by_cases e : tid2 = tid
    · subst e
      show OpInv _ (Function.update s.ops tid2 _ tid2)
      rw [Function.update_same]
      refine ⟨s.deqLog.length, ?_, hhead.symm, le_refl _⟩
      show s.deqLog.length < (fc s).length
      have hfl : (fc s).length = s.linkLog.length + 1 := by simp [fc]
      omega
    · show OpInv _ (Function.update s.ops tid _ tid2)
      rw [Function.update_noteq e]
      exact hops tid2
  | readTail2 tid h hop =>
    refine ⟨hlen0, hchain, helems, hnodup, hdlen, hdeq, hhead, htail,
      ?_, hdist_update_other (by intro a p hh; cases hh) hdist⟩
    intro tid2
    by_cases e : tid2 = tid
    · subst e
      show OpInv _ (Function.update s.ops tid2 _ tid2)
      rw [Function.update_same]
      have hold := hops tid2
      rw [hop] at hold
      obtain ⟨j, h1, h2, h3⟩ := hold
      obtain ⟨jt, g1, g2, g3⟩ := htail
      exact ⟨j, jt, h1, h2, h3, g1, g2, by omega, jt, g1, g2, le_refl _⟩
    · show OpInv _ (Function.update s.ops tid _ tid2)
      rw [Function.update_noteq e]
      exact hops tid2
  | deqEmpty tid h hop =>
    refine ⟨hlen0, hchain, helems, hnodup, hdlen, hdeq, hhead, htail,
      ?_, hdist_update_other (by intro a p hh; cases hh) hdist⟩
    intro tid2
    by_cases e : tid2 = tid
    · subst e
      show OpInv _ (Function.update s.ops tid2 _ tid2)
      rw [Function.update_same]
      trivial
    · show OpInv _ (Function.update s.ops tid _ tid2)
      rw [Function.update_noteq e]
      exact hops tid2
  | readHeadNext tid h t hop hne =>
    refine ⟨hlen0, hchain, helems, hnodup, hdlen, hdeq, hhead, htail,
      ?_, hdist_update_other (by intro a p hh; cases hh) hdist⟩
    intro tid2
    by_cases e : tid2 = tid
    · subst e
      show OpInv _ (Function.update s.ops tid2 _ tid2)
      rw [Function.update_same]
      have hold := hops tid2
      rw [hop] at hold
      obtain ⟨j, jt, h1, h2, h3, h4, h5, h6, hTG⟩ := hold
      have hjjt : j ≠ jt := by
        intro hcon
        apply hne
        rw [← h2, ← h5, hcon]
      have hjlt : j + 1 < (fc s).length := by omega
      refine ⟨j, hjlt, h2, ?_, TailGe_mono hTG (by omega)⟩
      have hsucc := IsChain_getD_succ hchain j (by simpa [fc] using hjlt)
      have hfc0 : (0 :: List.map Prod.snd s.linkLog) = fc s := rfl
      rw [hfc0] at hsucc
      rw [h2] at hsucc
      exact hsucc
    · show OpInv _ (Function.update s.ops tid _ tid2)
      rw [Function.update_noteq e]
      exact hops tid2
  | casHeadFail tid h n hop hne =>
    refine ⟨hlen0, hchain, helems, hnodup, hdlen, hdeq, hhead, htail,
      ?_, hdist_update_other (by intro a p hh; cases hh) hdist⟩
    intro tid2
    by_cases e : tid2 = tid
    · subst e
      show OpInv _ (Function.update s.ops tid2 _ tid2)
      rw [Function.update_same]
      trivial
    · show OpInv _ (Function.update s.ops tid _ tid2)
      rw [Function.update_noteq e]
      exact hops tid2
  | casHeadSucceed tid h n hop hhd =>
    have hold := hops tid
    rw [hop] at hold
    obtain ⟨j, hj1, hj2, hj3, hTG⟩ := hold
    injection hj3 with hn
    have hflen : (fc s).length = s.linkLog.length + 1 := by simp [fc]
    have hfc0 : (0 :: List.map Prod.snd s.linkLog) = fc s := rfl
    have hjk : j = s.deqLog.length := by
      refine nodup_getD_inj hnodup (by omega) (by omega) ?_
      rw [hj2, ← hhd]
      exact hhead
    refine ⟨hlen0, hchain, helems, hnodup, ?_, ?_, ?_, ?_, ?_,
      hdist_update_other (by intro a p hh; cases hh) hdist⟩
    · show (s.deqLog ++ [n]).length ≤ s.linkLog.length
      have hlen1 : (s.deqLog ++ [n]).length = s.deqLog.length + 1 := by simp
      omega
    · show s.deqLog ++ [n] =
        (List.map Prod.snd s.linkLog).take (s.deqLog ++ [n]).length
      have hlen1 : (s.deqLog ++ [n]).length = s.deqLog.length + 1 := by simp
      have hkmap : s.deqLog.length < (List.map Prod.snd s.linkLog).length := by
        simp
        omega
      rw [hlen1, ← List.take_concat_get' _ _ hkmap, ← hdeq]
      congr 1
      congr 1
      rw [hn, hjk, ← hfc0, List.getD_cons_succ]
      exact List.getD_eq_getElem _ 0 hkmap
    · show n = (fc s).getD (s.deqLog ++ [n]).length 0
      have hlen1 : (s.deqLog ++ [n]).length = s.deqLog.length + 1 := by simp
      rw [hlen1, ← hjk]
      exact hn
    · obtain ⟨jt, g1, g2, g3⟩ := hTG
      refine ⟨jt, g1, g2, ?_⟩
      show (s.deqLog ++ [n]).length ≤ jt
      have hlen1 : (s.deqLog ++ [n]).length = s.deqLog.length + 1 := by simp
      omega
    · intro tid2
      by_cases e : tid2 = tid
      · subst e
        show OpInv _ (Function.update s.ops tid2 _ tid2)
        rw [Function.update_same]
        trivial
      · show OpInv _ (Function.update s.ops tid _ tid2)
        rw [Function.update_noteq e]
        have hold2 := hops tid2
        cases hcase : s.ops tid2 with
        | idle => trivial
        | enq a2 p2 =>
          rw [hcase] at hold2
          exact EnqInv_same (s := s) (by rfl) (by rfl) hold2
        | deq pc2 =>
          rw [hcase] at hold2
          refine DeqInv_frame (s := s) (by rfl) (by rfl) ?_ hold2
          show s.deqLog.length ≤ (s.deqLog ++ [n]).length
          simp

theorem MSReachable_inv {T : Type} [Inhabited T] {s : MSState T}
    (hs : MSReachable s) : MSInv s := by
  induction hs with
  | init => exact MSInv_init T
  | step hr hst ih => exact MSInv_step ih hst

/-- A concrete interleaved run: thread 0 enqueues the value 7 (allocate,
read tail, read its successor, link by CAS, swing the tail) and then
dequeues it (read head, read tail, compare, read successor, CAS head),
ending with the linked address dequeued. -/
theorem MSReachable_example :
    ∃ s : MSState Int, MSReachable s ∧ s.deqLog = [1] ∧ s.head = 1 := by
  have hr := MSReachable.step (MSReachable.step (MSReachable.step
      (MSReachable.step (MSReachable.step (MSReachable.step
      (MSReachable.step (MSReachable.step (MSReachable.step
      (MSReachable.step MSReachable.init
      (MSStep.startEnq _ 0 (7 : Int) rfl))
      (MSStep.readTail _ 0 1 rfl))
      (MSStep.readTailNext _ 0 1 0 rfl))
      (MSStep.casNextSucceed _ 0 1 0 rfl rfl))
      (MSStep.casTailStep _ 0 1 0 rfl))
      (MSStep.startDeq _ 0 rfl))
      (MSStep.readHead _ 0 rfl))
      (MSStep.readTail2 _ 0 0 rfl))
      (MSStep.readHeadNext _ 0 0 1 rfl (by decide)))
      (MSStep.casHeadSucceed _ 0 0 1 rfl rfl)
  refine ⟨_, hr, ?_, ?_⟩
  · rfl
  · rfl

/-- C9: in the interleaved model of the lock-free queue, every reachable
state satisfies: the dequeued addresses are a duplicate-free prefix of the
CAS-success (link) order, so each enqueued value is dequeued at most once
and removal follows the global link order (no duplication); the linked but
not yet dequeued values remain chained from the current head in link
order, so none is lost and each stays dequeuable; for every producer
thread, the dequeued part of its values is a prefix of that thread's own
CAS-success sequence (per-producer FIFO); and no thread ever holds a nil
successor for its head CAS, so the succeeding dequeue never dereferences
nil. -/
theorem claim_C9_concurrent_fifo {T : Type} [Inhabited T] (s : MSState T)
    (hs : MSReachable s) :
    s.deqLog.Nodup ∧
    s.deqLog = (s.linkLog.take s.deqLog.length).map Prod.snd ∧
    IsChain s.nodes s.head ((s.linkLog.map Prod.snd).drop s.deqLog.length) ∧
    (∀ tid : Nat, List.IsPrefix
      (((s.linkLog.take s.deqLog.length).filter
        (fun p => p.1 == tid)).map Prod.snd)
      ((s.linkLog.filter (fun p => p.1 == tid)).map Prod.snd)) ∧
    (∀ tid h, s.ops tid ≠ .deq (.casHead h none)) := by
  have inv := MSReachable_inv hs
  have hL : (s.linkLog.map Prod.snd).Nodup :=
    (List.nodup_cons.mp inv.hnodup).2
  refine ⟨?_, ?_, ?_, ?_, ?_⟩
  · rw [inv.hdeq]
    exact List.Nodup.sublist (List.take_sublist _ _) hL
  · rw [List.map_take]
    exact inv.hdeq
  · have hk : s.deqLog.length ≤ (s.linkLog.map Prod.snd).length := by
      simpa using inv.hdlen
    have hd := IsChain_drop inv.hchain s.deqLog.length hk
    have hfc0 : (0 :: s.linkLog.map Prod.snd) = fc s := rfl
    rw [hfc0, ← inv.hhead] at hd
    exact hd
  · intro tid
    exact ((List.take_prefix _ _).filter _).map _
  · intro tid hh hcon
    have hop := inv.hops tid
    rw [hcon] at hop
    obtain ⟨j, h1, h2, h3, hTG⟩ := hop
    exact Option.noConfusion h3

theorem claim_C9_concurrent_fifo_witness :
    (MSInit Int).deqLog.Nodup ∧
    (MSInit Int).deqLog =
      ((MSInit Int).linkLog.take (MSInit Int).deqLog.length).map Prod.snd ∧
    IsChain (MSInit Int).nodes (MSInit Int).head
      (((MSInit Int).linkLog.map Prod.snd).drop
        (MSInit Int).deqLog.length) ∧
    (∀ tid : Nat, List.IsPrefix
      ((((MSInit Int).linkLog.take (MSInit Int).deqLog.length).filter
        (fun p => p.1 == tid)).map Prod.snd)
      (((MSInit Int).linkLog.filter (fun p => p.1 == tid)).map Prod.snd)) ∧
    (∀ tid h, (MSInit Int).ops tid ≠ .deq (.casHead h none)) :=
  claim_C9_concurrent_fifo (MSInit Int) MSReachable.init

end GoQueue
